import Mathlib

/-!
Verification of the counting core of `spacemake/bin/quant.py`.

This file gives a shallow embedding of the quantification pipeline of the
repository: priority tables, alignment disambiguation, gene disambiguation,
channel determination, (cell, UMI) deduplication, the `DGE` count aggregator
and the sparse-matrix builder, together with theorems settling the frozen
claims about that code.

Modelling conventions, chosen to stay observably faithful to the Python
source:

* Python `dict`s are embedded as insertion-ordered association lists
  (`List (key × value)`); `dict.get(k, 0)` becomes `(l.lookup k).getD 0`.
  A `defaultdict(int)` read of a missing key inserts the key with value `0`
  at the end, which we model explicitly where the code performs such reads.
* Python `set`s whose iteration order is never observed are embedded as
  duplicate-free lists built with an append-if-absent insertion
  (`pyInsert`), or as `Finset` when only membership and cardinality matter
  (the set of hash values `uniq`).
* Python's builtin `hash` on `(cell, umi)` string pairs is an unspecified
  function into a finite range; the embedding is parametric in a function
  `hashF : String → String → Int`.  Because infinitely many string pairs
  map into a finite range, no injective such function exists, so theorems
  instantiating `hashF` with a non-injective function exhibit behaviour the
  real program can show on colliding inputs.
* `sorted()` on Python strings is lexicographic comparison of code points;
  `charsLe` below is exactly that order and, unlike the opaque `String`
  order of the library, reduces inside the kernel.
* Statistics counters (`self.stats[...] += 1`) are pure observability and
  are omitted; they never influence any counted value.
* Integer priorities are embedded as `Int` (Python ints), priority tables
  as literal association lists copied from the module-level defaults.
-/

/-- Lexicographic comparison of code-point lists, the order Python's
`sorted` uses on strings. -/
def charsLe : List Char → List Char → Bool
  | [], _ => true
  | _ :: _, [] => false
  | a :: as, b :: bs =>
    if a.toNat < b.toNat then true
    else if b.toNat < a.toNat then false
    else charsLe as bs

/-- Lexicographic order on strings, as a Bool-valued comparator. -/
def strLeB (a b : String) : Bool := charsLe a.data b.data

/-- Propositional form of `strLeB`, used with `List.insertionSort`. -/
def strLe (a b : String) : Prop := strLeB a b = true

instance : DecidableRel strLe := fun a b => instDecidableEqBool (strLeB a b) true

/-- Python `set.add`: append the element if it is not already present.
The iteration order of a Python set is unspecified; insertion order is one
admissible choice and no observable value below depends on it. -/
def pyInsert {α : Type} [DecidableEq α] (l : List α) (x : α) : List α :=
  if x ∈ l then l else l ++ [x]

/-- Python `max` over a list of integers (`max([])` raises in Python; the
embedding returns 0 there and every caller below passes a non-empty list). -/
def list_max : List Int → Int
  | [] => 0
  | x :: xs => xs.foldl max x

/-- Python `table.get(f, 0)` on a priority dictionary. -/
def prioGet (tbl : List (String × Int)) (f : String) : Int :=
  (tbl.lookup f).getD 0

/-- Module-level `default_alignment_priorities` dictionary of quant.py. -/
def default_alignment_priorities : List (String × Int) :=
  [("C", 101), ("c", 100), ("U", 51), ("u", 50), ("CU", 51), ("cu", 50),
   ("N", 21), ("n", 20), ("I", 11), ("i", 10), ("-", 0)]

/-- Module-level `default_gene_priorities` dictionary of quant.py. -/
def default_gene_priorities : List (String × Int) :=
  [("C", 101), ("c", 100), ("U", 51), ("u", 50), ("CU", 51), ("cu", 50),
   ("N", 21), ("n", 20), ("I", 11), ("i", 10), ("-", 0)]

/-- Module-level `default_exonic_tags` list of quant.py. -/
def default_exonic_tags : List String :=
  ["C", "U", "CU", "N", "c", "u", "cu", "n"]

/-- Module-level `default_intronic_tags` list of quant.py. -/
def default_intronic_tags : List String := ["I", "i"]

/-- Module-level `default_channels` list of quant.py. -/
def default_channels : List String :=
  ["counts", "exonic_counts", "exonic_reads", "intronic_counts", "intronic_reads"]

/-- Module-level `default_X_counts` list of quant.py. -/
def default_X_counts : List String := ["exonic_counts", "intronic_counts"]

/-- One alignment of a bundle: the `(chrom, strand, gn, gf, score)` tuples
produced by `bam_iter_bundles` and consumed by `DefaultCounter`. -/
structure Candidate where
  chrom : String
  strand : String
  gn : List String
  gf : List String
  score : Int
deriving DecidableEq, Repr

/-- Body of `get_prio` inside `DefaultCounter.select_alignment_by_priority`:
the maximum priority over the feature codes of one alignment. -/
def get_prio (tbl : List (String × Int)) (gf : List String) : Int :=
  list_max (gf.map (prioGet tbl))

/-- Loop of `DefaultCounter.select_alignment_by_priority` over the bundle,
carrying `top_prio`, `n_top` and `kept`. -/
def selLoop (tbl : List (String × Int)) :
    List Candidate → Int → Nat → Option Candidate → Int × Nat × Option Candidate
  | [], top, n, kept => (top, n, kept)
  | c :: rest, top, n, kept =>
    let p := get_prio tbl c.gf
    if top < p then selLoop tbl rest p 1 (some c)
    else if p = top then selLoop tbl rest top (n + 1) (some c)
    else selLoop tbl rest top n kept

/-- `DefaultCounter.select_alignment_by_priority`: scan the bundle tracking
the running maximum priority; return the kept candidate only when exactly
one candidate attained the final maximum. -/
def select_alignment_by_priority (tbl : List (String × Int)) (bundle : List Candidate) :
    Option Candidate :=
  let r := selLoop tbl bundle 0 0 none
  if r.2.1 = 1 then r.2.2 else none

/-- `DefaultCounter.select_first_alignment`: `bundle[0]`. -/
def select_first_alignment (bundle : List Candidate) : Option Candidate :=
  bundle.head?

/-- Alignment-selection stage of `DefaultCounter.process_bam_bundle`
(quant.py lines 385-394): a single-candidate bundle is taken unconditionally,
otherwise the configured strategy decides. -/
inductive ASel where
  | priority
  | take_first
deriving DecidableEq, Repr

/-- Dispatch of `self.select_alignment` set up in `DefaultCounter.__init__`. -/
def select_alignment (sel : ASel) (tbl : List (String × Int)) (bundle : List Candidate) :
    Option Candidate :=
  match sel with
  | .priority => select_alignment_by_priority tbl bundle
  | .take_first => select_first_alignment bundle

/-- Lines 385-394 of quant.py: `selected = bundle[0]` when the bundle has
exactly one alignment, else `selected = self.select_alignment(bundle)`. -/
def selectAlignmentStage (sel : ASel) (tbl : List (String × Int)) (bundle : List Candidate) :
    Option Candidate :=
  if bundle.length = 1 then bundle.head?
  else select_alignment sel tbl bundle

/-- `DefaultCounter.select_gene_by_priority` (quant.py lines 329-348).
Returns `some (gn_new, gene_gf[gn[0]])` when exactly one distinct gene is
tied for the highest priority, `none` (Python `(None, None)`) otherwise.
Note the source really returns the list `gn_new` (not `gn_new[0]`) and the
collected feature codes of `gn[0]`, the first gene of the input list. -/
def select_gene_by_priority (tbl : List (String × Int)) (gn gf : List String) :
    Option (List String × List String) :=
  let pairs := gn.zip gf
  let gene_prio : String → Int := fun n =>
    pairs.foldl (fun a p => if p.1 = n then max a (prioGet tbl p.2) else a) 0
  let max_prio : Int := pairs.foldl (fun a p => max a (prioGet tbl p.2)) 0
  let gene_gf : String → List String := fun n =>
    (pairs.filter (fun p => p.1 == n)).map (fun p => p.2)
  let gn_new := gn.dedup.filter (fun n => gene_prio n == max_prio)
  if gn_new.length = 1 then some (gn_new, gene_gf (gn.headD "")) else none

/-- `DefaultCounter.select_chrom_as_gene`: the chromosome name stands in for
the gene, with a synthetic non-coding feature code. -/
def select_chrom_as_gene (c : Candidate) : String × List String :=
  (c.chrom, ["N"])

/-- Selector for `gene_selection` in `DefaultCounter.__init__`. -/
inductive GSel where
  | priority
  | chrom
deriving DecidableEq, Repr

/-- Selector for `exon_intron_disambiguation` in `DefaultCounter.__init__`,
the keys of `exon_intron_disambiguation_functions`. -/
inductive EIPolicy where
  | exon_wins
  | intron_wins
  | count_both
deriving DecidableEq, Repr

/-- The `exon_intron_disambiguation_functions` of quant.py: channel-set
post-processing (set difference modelled as an order-preserving filter). -/
def eip_apply : EIPolicy → List String → List String
  | .exon_wins, ch => ch.filter (fun c => !(c == "intronic_reads" || c == "intronic_counts"))
  | .intron_wins, ch => ch.filter (fun c => !(c == "exonic_reads" || c == "exonic_counts"))
  | .count_both, ch => ch

/-- Construction-time configuration of one `DefaultCounter` instance. -/
structure QuantCfg where
  alignment_priorities : List (String × Int)
  gene_priorities : List (String × Int)
  exonic_tags : List String
  intronic_tags : List String
  X_counts : List String
  eip : EIPolicy
  alignment_selection : ASel
  gene_selection : GSel
  hashF : String → String → Int

/-- One iteration of the `for f in gf` loop of
`DefaultCounter.determine_channels`: accumulator is (channels, exon, intron). -/
def dcStep (cfg : QuantCfg) (uniq : Bool) (acc : List String × Bool × Bool) (f : String) :
    List String × Bool × Bool :=
  if f ∈ cfg.exonic_tags then
    ((let ch := pyInsert acc.1 "exonic_reads"
      if uniq then pyInsert ch "exonic_counts" else ch), true, acc.2.2)
  else if f ∈ cfg.intronic_tags then
    ((let ch := pyInsert acc.1 "intronic_reads"
      if uniq then pyInsert ch "intronic_counts" else ch), acc.2.1, true)
  else acc

/-- The feature-code loop of `DefaultCounter.determine_channels`. -/
def dc_flags (cfg : QuantCfg) (gf : List String) (uniq : Bool) :
    List String × Bool × Bool :=
  gf.foldl (dcStep cfg uniq) ([], false, false)

/-- Channel set of `DefaultCounter.determine_channels` after the
exon/intron conflict policy, before the main-channel test. -/
def dc_post (cfg : QuantCfg) (gf : List String) (uniq : Bool) : List String :=
  let r := dc_flags cfg gf uniq
  if r.2.1 && r.2.2 then eip_apply cfg.eip r.1 else r.1

/-- `DefaultCounter.determine_channels` (quant.py lines 351-377). -/
def determine_channels (cfg : QuantCfg) (gf : List String) (uniq : Bool) : List String :=
  let ch := dc_post cfg gf uniq
  if ch.any (fun c => cfg.X_counts.contains c) then pyInsert ch "counts" else ch

/-- The deduplication fragment of `DefaultCounter.process_bam_bundle`
(quant.py lines 424-427): membership of `hash((cell, umi))` in the shared
`uniq` set decides first observation, and a fresh hash is recorded. -/
def observe (hashF : String → String → Int) (uniq : Finset Int) (cell umi : String) :
    Bool × Finset Int :=
  let key := hashF cell umi
  let u : Bool := decide (key ∉ uniq)
  (u, if u then insert key uniq else uniq)

/-- Value of the Python variable `gene` in `process_bam_bundle`: the source
is dynamically typed and stores either `None`, the string `gn[0]` (or a
chromosome name), or the one-element list returned by
`select_gene_by_priority`. -/
inductive GeneVal where
  | none
  | str (s : String)
  | lst (l : List String)
deriving DecidableEq, Repr

/-- Python truthiness of the `gene` variable (`if gene:`). -/
def pyTruthy : GeneVal → Bool
  | .none => false
  | .str s => !(s == "")
  | .lst l => !l.isEmpty

/-- Value of the Python variable `gf` after gene selection: the single
string `gf[0]` in the unique-gene branch, a list of strings otherwise. -/
inductive GfVal where
  | s (v : String)
  | l (v : List String)
deriving DecidableEq, Repr

/-- Iterating the Python value `gf` in `determine_channels`: iterating a
string yields its characters as one-character strings. -/
def gfToList : GfVal → List String
  | .s v => v.data.map Char.toString
  | .l v => v

/-- Gene-selection stage of `process_bam_bundle` (quant.py lines 401-411):
a single gene name is taken directly together with `gf[0]`, otherwise the
configured strategy decides.  (Python indexes `gf[0]`, which raises on an
empty feature list; the reader never produces one, and `headD "-"` mirrors
the reader's representation of a missing tag.) -/
def selectGeneStage (cfg : QuantCfg) (cand : Candidate) : GeneVal × GfVal :=
  if cand.gn.length = 1 then (.str (cand.gn.headD "-"), .s (cand.gf.headD "-"))
  else
    match cfg.gene_selection with
    | .priority =>
      match select_gene_by_priority cfg.gene_priorities cand.gn cand.gf with
      | some (gl, fl) => (.lst gl, .l fl)
      | none => (.none, .l [])
    | .chrom => (.str (select_chrom_as_gene cand).1, .l (select_chrom_as_gene cand).2)

/-- `DefaultCounter.process_bam_bundle` (quant.py lines 380-436), with the
statistics counters omitted.  Returns the `gene` and `channels` values of
the Python return statement together with the updated `self.uniq` set. -/
def process_bam_bundle (cfg : QuantCfg) (uniq : Finset Int) (cell umi : String)
    (bundle : List Candidate) : GeneVal × List String × Finset Int :=
  match selectAlignmentStage cfg.alignment_selection cfg.alignment_priorities bundle with
  | Option.none => (.none, [], uniq)
  | Option.some cand =>
    let gv := selectGeneStage cfg cand
    if pyTruthy gv.1 then
      let ob := observe cfg.hashF uniq cell umi
      (gv.1, determine_channels cfg (gfToList gv.2) ob.1, ob.2)
    else (gv.1, [], uniq)

/-- Python `defaultdict(int)` read without write-back: current value, 0 when
absent. -/
def ddVal (d : List (String × Nat)) (k : String) : Nat :=
  (d.lookup k).getD 0

/-- Python `defaultdict(int)` read including its side effect: a missing key
is inserted with value 0. -/
def ddTouch (d : List (String × Nat)) (k : String) : List (String × Nat) :=
  match d.lookup k with
  | some _ => d
  | none => d ++ [(k, 0)]

/-- Python `d[k] += 1` on a `defaultdict(int)`: update in place, or append
the key with value 1. -/
def ddIncr : List (String × Nat) → String → List (String × Nat)
  | [], k => [(k, 1)]
  | (k', v) :: rest, k =>
    if k' = k then (k', v + 1) :: rest else (k', v) :: ddIncr rest k

/-- Python `self.counts[(gene, cell)][channel] += 1` on the outer
`defaultdict(lambda: defaultdict(int))`. -/
def cdIncr : List ((String × String) × List (String × Nat)) → String × String → String →
    List ((String × String) × List (String × Nat))
  | [], key, ch => [(key, [(ch, 1)])]
  | (k', d) :: rest, key, ch =>
    if k' = key then (k', ddIncr d ch) :: rest else (k', d) :: cdIncr rest key ch

/-- State of one `DGE` aggregator instance (quant.py lines 115-144). -/
structure DGE where
  channels : List String
  allowed_bcs : Option (List String)
  counts : List ((String × String) × List (String × Nat))
  DGE_cells : List String
  DGE_genes : List String
deriving DecidableEq, Repr

/-- `DGE.__init__`: empty counts and observed sets. -/
def DGE.init (channels : List String) (allowed : Option (List String)) : DGE :=
  ⟨channels, allowed, [], [], []⟩

/-- The allow-list test of `DGE.add_read`: Python's
`if self.allowed_bcs and not (cell in self.allowed_bcs)` treats both a
missing allow-list and an empty allow-list as falsy. -/
def mapCell (allowed : Option (List String)) (cell : String) : String :=
  match allowed with
  | some bcs => if bcs ≠ [] ∧ cell ∉ bcs then "NA" else cell
  | none => cell

/-- `DGE.add_read` (quant.py lines 134-144). -/
def DGE.add_read (s : DGE) (gene cell : String) (channels : List String) : DGE :=
  if channels = [] then s
  else
    let cell := mapCell s.allowed_bcs cell
    { s with
      DGE_cells := pyInsert s.DGE_cells cell
      DGE_genes := pyInsert s.DGE_genes gene
      counts := channels.foldl (fun cs ch => cdIncr cs (gene, cell) ch) s.counts }

/-- A scipy `csr_matrix` built from `(data, (row, col))` triples: entries
are sums of data values at equal coordinates. -/
structure Csr where
  data : List Nat
  rows : List Nat
  cols : List Nat
deriving DecidableEq, Repr

/-- Matrix entry at (i, j): the sum of the data values whose coordinates
are (i, j). -/
def Csr.entry (m : Csr) (i j : Nat) : Nat :=
  ((m.data.zip (m.rows.zip m.cols)).filter (fun t => t.2.1 == i && t.2.2 == j)).foldl
    (fun a t => a + t.1) 0

/-- Inferred shape `(max(row) + 1, max(col) + 1)` of a scipy matrix built
without an explicit shape argument (meaningful only when the index lists
are non-empty; see `csr_infer`). -/
def Csr.shape (m : Csr) : Nat × Nat :=
  (m.rows.foldr max 0 + 1, m.cols.foldr max 0 + 1)

/-- The scipy constructor `csr_matrix((data, (row, col)))` with inferred
shape: raises `ValueError` ("cannot infer dimensions from zero sized index
arrays") when the index arrays are empty, modelled as `none`. -/
def csr_infer (data rows cols : List Nat) : Option Csr :=
  if rows = [] ∨ cols = [] then none else some ⟨data, rows, cols⟩

/-- `DGE.make_sparse_arrays` (quant.py lines 146-188).  Returns the
per-channel matrices in channel order, the sorted cell and gene index
lists, and the post-call aggregator state (the inner `defaultdict` reads
insert explicit zeros for channels a key never saw); `none` models the
`ValueError` raised by scipy when the aggregator holds no counts at all. -/
def make_sparse_arrays (s : DGE) :
    Option (List (String × Csr) × List String × List String × DGE) :=
  let obs := List.insertionSort strLe s.DGE_cells
  let var := List.insertionSort strLe s.DGE_genes
  let row_ind := s.counts.map (fun e => obs.indexOf e.1.2)
  let col_ind := s.counts.map (fun e => var.indexOf e.1.1)
  (s.channels.mapM (fun ch =>
      (csr_infer (s.counts.map (fun e => ddVal e.2 ch)) row_ind col_ind).map
        (fun m => (ch, m)))).map
    (fun mats =>
      (mats, obs, var,
        { s with counts := s.counts.map (fun e => (e.1, s.channels.foldl ddTouch e.2)) }))

/-- One input record of the counting loop in `main`: a cell barcode, a UMI
and a bundle of candidate alignments. -/
structure BundleIn where
  cell : String
  umi : String
  bundle : List Candidate
deriving DecidableEq, Repr

/-- Mutable state of the counting loop in `main`: the shared `uniq` hash
set and the `DGE` aggregator. -/
structure QState where
  uniq : Finset Int
  dge : DGE
deriving DecidableEq

/-- One iteration of the counting loop of `main` (quant.py lines 646-656):
process the bundle, then `dge.add_read` when `gene` is truthy.  When
`select_gene_by_priority` succeeded, `gene` is a Python list; using it as a
set element / dictionary key raises `TypeError` (lists are unhashable),
modelled as `Except.error` carrying the state at the raise (`DGE_cells` has
already been updated when the channel set is non-empty). -/
def mainStep (cfg : QuantCfg) (st : QState) (b : BundleIn) : Except QState QState :=
  let r := process_bam_bundle cfg st.uniq b.cell b.umi b.bundle
  match r.1 with
  | .str g => .ok ⟨r.2.2, if g = "" then st.dge else st.dge.add_read g b.cell r.2.1⟩
  | .none => .ok ⟨r.2.2, st.dge⟩
  | .lst _ =>
    .error ⟨r.2.2,
      if r.2.1 = [] then st.dge
      else { st.dge with
             DGE_cells := pyInsert st.dge.DGE_cells (mapCell st.dge.allowed_bcs b.cell) }⟩

/-- The counting loop of `main` over a finite bundle list; an uncaught
`TypeError` aborts the run, leaving the state at the raise. -/
def runBundles (cfg : QuantCfg) : QState → List BundleIn → QState
  | st, [] => st
  | st, b :: bs =>
    match mainStep cfg st b with
    | .ok st' => runBundles cfg st' bs
    | .error st' => st'

/-- Per-bundle outcomes (gene value and channel set) of a run, in order,
up to and including the bundle on which the run aborts. -/
def runOutcomes (cfg : QuantCfg) : Finset Int → List BundleIn → List (GeneVal × List String)
  | _, [] => []
  | u, b :: bs =>
    let r := process_bam_bundle cfg u b.cell b.umi b.bundle
    match r.1 with
    | .lst l => [(.lst l, r.2.1)]
    | g => (g, r.2.1) :: runOutcomes cfg r.2.2 bs

/-- Number of processed bundles that were disambiguated to a gene and whose
classification produced channel `ch`. -/
def producedCount (cfg : QuantCfg) (u : Finset Int) (bs : List BundleIn) (ch : String) : Nat :=
  ((runOutcomes cfg u bs).filter (fun o => pyTruthy o.1 && o.2.contains ch)).length

/-- Number of processed bundles whose (cell, umi) hash was fresh at the
time the bundle was counted. -/
def freshCount (cfg : QuantCfg) : Finset Int → List BundleIn → Nat
  | _, [] => 0
  | u, b :: bs =>
    let r := process_bam_bundle cfg u b.cell b.umi b.bundle
    let ind := if pyTruthy r.1 && decide (cfg.hashF b.cell b.umi ∉ u) then 1 else 0
    match r.1 with
    | .lst _ => ind
    | _ => ind + freshCount cfg r.2.2 bs

/-- Total count accumulated in channel `ch` across all count keys. -/
def channelTotal (s : DGE) (ch : String) : Nat :=
  (s.counts.map (fun e => ddVal e.2 ch)).sum

/-- Suffix test on strings by code points (Python `str.endswith`). -/
def hasSuffixB (s suf : String) : Bool :=
  suf.data.isSuffixOf s.data

/-- Configuration mirroring the default keyword arguments of
`DefaultCounter.__init__`, parametric in the hash function. -/
def defaultCfg (hashF : String → String → Int) : QuantCfg :=
  ⟨default_alignment_priorities, default_gene_priorities, default_exonic_tags,
   default_intronic_tags, default_X_counts, .exon_wins, .priority, .priority, hashF⟩

/-- Value of the `kept` variable after scanning a segment whose attainers
are `l`, starting from `d`: the last attainer when one exists. -/
def lastOr {α : Type} : List α → Option α → Option α
  | [], d => d
  | c :: rest, _ => lastOr rest (some c)

/-- Running maximum of candidate priorities, seeded with `top_prio`. -/
def runMax (tbl : List (String × Int)) (l : List Candidate) (top : Int) : Int :=
  l.foldl (fun a c => max a (get_prio tbl c.gf)) top

/-- Decidable test that a candidate attains priority `m`. -/
def attains (tbl : List (String × Int)) (m : Int) (c : Candidate) : Bool :=
  get_prio tbl c.gf == m

/-- Maximum priority over the candidates of a bundle (the claim's notion of
the bundle's maximum candidate priority). -/
def bundleMax (tbl : List (String × Int)) (bundle : List Candidate) : Int :=
  list_max (bundle.map (fun c => get_prio tbl c.gf))

/-- Well-formedness of an aggregator state: the count-dictionary keys are
distinct (a Python dict guarantee), every key's cell and gene are in the
observed sets, and every observed cell and gene occurs in some key.  The
initial state satisfies it (`WF_init`) and `add_read` preserves it
(`WF_add_read`). -/
def DGE.WF (s : DGE) : Prop :=
  (s.counts.map (fun e => e.1)).Nodup ∧
  s.DGE_cells.Nodup ∧
  s.DGE_genes.Nodup ∧
  (∀ k ∈ s.counts.map (fun e => e.1), k.2 ∈ s.DGE_cells ∧ k.1 ∈ s.DGE_genes) ∧
  (∀ c ∈ s.DGE_cells, ∃ k ∈ s.counts.map (fun e => e.1), k.2 = c) ∧
  (∀ g ∈ s.DGE_genes, ∃ k ∈ s.counts.map (fun e => e.1), k.1 = g)

instance (s : DGE) : Decidable s.WF := by
  unfold DGE.WF
  infer_instance

/-- Accumulated count recorded for the CountKey (gene, cell) in a channel:
the observable content of the `DGE.counts` dictionary. -/
def getCount (s : DGE) (gene cell ch : String) : Nat :=
  match s.counts.lookup (gene, cell) with
  | some d => ddVal d ch
  | none => 0

theorem mem_pyInsert {α : Type} [DecidableEq α] (l : List α) (x y : α) :
    y ∈ pyInsert l x ↔ y ∈ l ∨ y = x := by
  unfold pyInsert
  split
  · rename_i h
    constructor
    · exact fun hy => Or.inl hy
    · rintro (hy | rfl)
      · exact hy
      · exact h
  · simp [List.mem_append]

theorem nodup_pyInsert {α : Type} [DecidableEq α] (l : List α) (x : α) (h : l.Nodup) :
    (pyInsert l x).Nodup := by
  unfold pyInsert
  split
  · exact h
  · rename_i hx
    simp [List.nodup_append, h, hx]

/-- C1 (code_bug evaluation): on the candidate gene lists
`gn = ["GeneA", "GeneB"]`, `gf = ["I", "C"]` with the default gene
priorities, gene "GeneB" uniquely attains the maximum per-gene priority
(101 from code "C", against 11 for "GeneA"), so the claim asks for the
return value `("GeneB", ["C"])`.  The source instead returns the
one-element list `["GeneB"]` (the Python `return gn_new, ...` omits the
`[0]` index) paired with `gene_gf[gn[0]] = ["I"]`, the feature codes of
the first input gene "GeneA", not of the selected gene.  The returned
list later reaches `DGE.add_read` and `gene_source[gene]`, where an
unhashable list key raises `TypeError`. -/
theorem c1_select_gene_by_priority_eval :
    select_gene_by_priority default_gene_priorities ["GeneA", "GeneB"] ["I", "C"] =
      some (["GeneB"], ["I"]) := by decide

/-- C2 (code_bug evaluation): the deduplication test keys on
`hash((cell, umi))`, not on the exact pair.  Under any hash function that
collides on two distinct pairs — and every map from the infinitely many
string pairs into Python's finite hash range must collide somewhere — the
first presentation of the second pair is reported as a duplicate
(`observe` returns `false`), so distinct pairs do affect each other's
first-observation result, contradicting the claim. -/
theorem c2_hash_collision_eval :
    observe (fun _ _ => 0) ∅ "ACGT" "AAA" = (true, {0}) ∧
    observe (fun _ _ => 0) {0} "TTTT" "CCC" = (false, {0}) := by
  constructor
  · decide
  · decide

/-- C8 (confirmed): `DGE.add_read` with an empty channel set is a
complete no-op: the aggregator state, including counts and the observed
cell and gene sets, is returned unchanged. -/
theorem c8_add_read_empty_noop (s : DGE) (gene cell : String) :
    s.add_read gene cell [] = s := by
  simp [DGE.add_read]

/-- C7 (amended): when a non-empty allow-list is configured and the cell
barcode is not on it, a non-empty `add_read` call accumulates all its
increments under the sentinel cell id "NA" and records the sentinel, not
the original barcode, in the observed-cell set; when no allow-list is
configured every barcode is accepted unchanged.  (The amendment: the
original claim also covered a configured but empty allow-list, where
Python's truthiness test skips the remapping — see `c7_counterexample`.) -/
theorem c7_allowlist (s : DGE) (gene cell : String) (chl : List String) (bcs : List String)
    (hb : s.allowed_bcs = some bcs) (hne : bcs ≠ []) (hcell : cell ∉ bcs) (hch : chl ≠ []) :
    (s.add_read gene cell chl).DGE_cells = pyInsert s.DGE_cells "NA" ∧
    (s.add_read gene cell chl).counts =
      chl.foldl (fun cs ch => cdIncr cs (gene, "NA") ch) s.counts ∧
    (cell ≠ "NA" → cell ∉ s.DGE_cells → cell ∉ (s.add_read gene cell chl).DGE_cells) ∧
    (∀ t : DGE, t.allowed_bcs = none →
      (t.add_read gene cell chl).DGE_cells = pyInsert t.DGE_cells cell ∧
      (t.add_read gene cell chl).counts =
        chl.foldl (fun cs ch => cdIncr cs (gene, cell) ch) t.counts) := by
  have hmap : mapCell s.allowed_bcs cell = "NA" := by
    rw [hb]
    simp [mapCell, hne, hcell]
  refine ⟨?_, ?_, ?_, ?_⟩
  · simp [DGE.add_read, hch, hmap]
  · simp [DGE.add_read, hch, hmap]
  · intro hna hmem
    have hc : (s.add_read gene cell chl).DGE_cells = pyInsert s.DGE_cells "NA" := by
      simp [DGE.add_read, hch, hmap]
    rw [hc, mem_pyInsert]
    rintro (h | h)
    · exact hmem h
    · exact hna h
  · intro t ht
    have hmap' : mapCell t.allowed_bcs cell = cell := by rw [ht]; rfl
    constructor
    · simp [DGE.add_read, hch, hmap']
    · simp [DGE.add_read, hch, hmap']

/-- C7 witness: a concrete allow-list `["GGG"]` and the barcode "AAA"
outside it; the sentinel is recorded in the observed-cell set. -/
theorem c7_allowlist_witness :
    ((DGE.init ["counts"] (some ["GGG"])).add_read "GeneA" "AAA" ["counts"]).DGE_cells =
      pyInsert (DGE.init ["counts"] (some ["GGG"])).DGE_cells "NA" :=
  (c7_allowlist (DGE.init ["counts"] (some ["GGG"])) "GeneA" "AAA" ["counts"] ["GGG"]
    rfl (by decide) (by decide) (by decide)).1

/-- C7 counterexample: with a configured but empty allow-list (an empty
allow-list file yields `set()`), Python's `if self.allowed_bcs and ...`
is falsy, so the barcode "AAA" — which is not on the (empty) allow-list —
is NOT remapped: its counts accumulate under "AAA" and the sentinel "NA"
is never recorded, contradicting the claim as stated. -/
theorem c7_counterexample :
    ((DGE.init ["counts"] (some [])).add_read "GeneA" "AAA" ["counts"]).DGE_cells = ["AAA"] ∧
    "NA" ∉ ((DGE.init ["counts"] (some [])).add_read "GeneA" "AAA" ["counts"]).DGE_cells ∧
    ((DGE.init ["counts"] (some [])).add_read "GeneA" "AAA" ["counts"]).counts =
      [(("GeneA", "AAA"), [("counts", 1)])] := by
  refine ⟨by decide, by decide, by decide⟩

/-- C10 (confirmed): the shared `uniq` hash set is updated only when the
bundle was disambiguated to a (truthy) gene — on any selection failure the
set is returned unchanged, so a later bundle with the same (cell, umi)
pair is still treated as a first observation; on success the pair's hash
is recorded (inserting an already-present hash leaves the set equal). -/
theorem c10_dedup_update (cfg : QuantCfg) (uniq : Finset Int) (cell umi : String)
    (bundle : List Candidate) :
    (pyTruthy (process_bam_bundle cfg uniq cell umi bundle).1 = false →
      (process_bam_bundle cfg uniq cell umi bundle).2.2 = uniq) ∧
    (pyTruthy (process_bam_bundle cfg uniq cell umi bundle).1 = true →
      (process_bam_bundle cfg uniq cell umi bundle).2.2 = insert (cfg.hashF cell umi) uniq) := by
  unfold process_bam_bundle
  cases hsel : selectAlignmentStage cfg.alignment_selection cfg.alignment_priorities bundle with
  | none => simp [pyTruthy]
  | some cand =>
    dsimp only
    by_cases ht : pyTruthy (selectGeneStage cfg cand).1 = true
    · rw [if_pos ht]
      refine ⟨fun hf => ?_, fun _ => ?_⟩
      · rw [ht] at hf
        cases hf
      · dsimp only [observe]
        by_cases hk : cfg.hashF cell umi ∈ uniq
        · simp [hk, Finset.insert_eq_self.mpr hk]
        · simp [hk]
    · rw [if_neg ht]
      exact ⟨fun _ => rfl, fun htr => absurd htr ht⟩

/-- C10 witness: a bundle of two candidates tied at priority 101 fails
alignment selection; the hash set stays empty. -/
theorem c10_dedup_update_witness :
    (process_bam_bundle (defaultCfg (fun _ _ => 0)) ∅ "AAA" "U1"
        [⟨"chr1", "+", ["GeneA"], ["C"], 1⟩, ⟨"chr1", "-", ["GeneB"], ["C"], 1⟩]).2.2 = ∅ :=
  (c10_dedup_update (defaultCfg (fun _ _ => 0)) ∅ "AAA" "U1"
    [⟨"chr1", "+", ["GeneA"], ["C"], 1⟩, ⟨"chr1", "-", ["GeneB"], ["C"], 1⟩]).1 (by decide)

theorem dcStep_fst_mem (cfg : QuantCfg) (uniq : Bool) (acc : List String × Bool × Bool)
    (f c : String) (hc : c ∈ (dcStep cfg uniq acc f).1) :
    c ∈ acc.1 ∨ c = "exonic_reads" ∨ c = "exonic_counts" ∨ c = "intronic_reads" ∨
      c = "intronic_counts" := by
  unfold dcStep at hc
  split at hc
  · cases uniq <;> simp only [Bool.false_eq_true, if_true, if_false, mem_pyInsert] at hc <;> tauto
  · split at hc
    · cases uniq <;> simp only [Bool.false_eq_true, if_true, if_false, mem_pyInsert] at hc <;>
        tauto
    · exact Or.inl hc

theorem dcFold_subset (cfg : QuantCfg) (uniq : Bool) (gf : List String)
    (acc : List String × Bool × Bool) (c : String)
    (hc : c ∈ (gf.foldl (dcStep cfg uniq) acc).1) :
    c ∈ acc.1 ∨ c = "exonic_reads" ∨ c = "exonic_counts" ∨ c = "intronic_reads" ∨
      c = "intronic_counts" := by
  induction gf generalizing acc with
  | nil => exact Or.inl hc
  | cons f rest ih =>
    rw [List.foldl_cons] at hc
    rcases ih (dcStep cfg uniq acc f) hc with h | h
    · rcases dcStep_fst_mem cfg uniq acc f c h with h' | h'
      · exact Or.inl h'
      · exact Or.inr h'
    · exact Or.inr h

theorem dcStep_intron_flag (cfg : QuantCfg) (uniq : Bool) (acc : List String × Bool × Bool)
    (f : String)
    (hacc : ("intronic_reads" ∈ acc.1 ∨ "intronic_counts" ∈ acc.1) → acc.2.2 = true)
    (h : "intronic_reads" ∈ (dcStep cfg uniq acc f).1 ∨
         "intronic_counts" ∈ (dcStep cfg uniq acc f).1) :
    (dcStep cfg uniq acc f).2.2 = true := by
  unfold dcStep at h ⊢
  by_cases hex : f ∈ cfg.exonic_tags
  · rw [if_pos hex] at h ⊢
    dsimp only
    apply hacc
    cases uniq <;>
      simp only [Bool.false_eq_true, if_true, if_false, mem_pyInsert] at h <;>
      simpa using h
  · rw [if_neg hex] at h ⊢
    by_cases hin : f ∈ cfg.intronic_tags
    · rw [if_pos hin]
    · rw [if_neg hin] at h ⊢
      exact hacc h

theorem dcFold_intron_flag (cfg : QuantCfg) (uniq : Bool) (gf : List String)
    (acc : List String × Bool × Bool)
    (hacc : ("intronic_reads" ∈ acc.1 ∨ "intronic_counts" ∈ acc.1) → acc.2.2 = true)
    (h : "intronic_reads" ∈ (gf.foldl (dcStep cfg uniq) acc).1 ∨
         "intronic_counts" ∈ (gf.foldl (dcStep cfg uniq) acc).1) :
    (gf.foldl (dcStep cfg uniq) acc).2.2 = true := by
  induction gf generalizing acc with
  | nil => exact hacc h
  | cons f rest ih =>
    rw [List.foldl_cons] at h ⊢
    exact ih (dcStep cfg uniq acc f) (dcStep_intron_flag cfg uniq acc f hacc) h

theorem dcStep_exon_flag_mono (cfg : QuantCfg) (uniq : Bool)
    (acc : List String × Bool × Bool) (f : String) (h : acc.2.1 = true) :
    (dcStep cfg uniq acc f).2.1 = true := by
  unfold dcStep
  split
  · rfl
  · split
    · exact h
    · exact h

theorem dcFold_exon_flag_mono (cfg : QuantCfg) (uniq : Bool) (gf : List String)
    (acc : List String × Bool × Bool) (h : acc.2.1 = true) :
    (gf.foldl (dcStep cfg uniq) acc).2.1 = true := by
  induction gf generalizing acc with
  | nil => exact h
  | cons f rest ih =>
    rw [List.foldl_cons]
    exact ih (dcStep cfg uniq acc f) (dcStep_exon_flag_mono cfg uniq acc f h)

theorem dcFold_exon_flag (cfg : QuantCfg) (uniq : Bool) (gf : List String)
    (acc : List String × Bool × Bool) (hE : ∃ f ∈ gf, f ∈ cfg.exonic_tags) :
    (gf.foldl (dcStep cfg uniq) acc).2.1 = true := by
  induction gf generalizing acc with
  | nil => rcases hE with ⟨f, hf, _⟩; cases hf
  | cons f rest ih =>
    rw [List.foldl_cons]
    rcases hE with ⟨g, hg, hgex⟩
    rcases List.mem_cons.mp hg with rfl | hgm
    · apply dcFold_exon_flag_mono
      unfold dcStep
      rw [if_pos hgex]
    · exact ih (dcStep cfg uniq acc f) ⟨g, hgm, hgex⟩

theorem eip_apply_subset (p : EIPolicy) (ch : List String) (c : String)
    (h : c ∈ eip_apply p ch) : c ∈ ch := by
  cases p
  · exact List.mem_of_mem_filter h
  · exact List.mem_of_mem_filter h
  · exact h

/-- C4 (confirmed): (i) whenever the feature-code list contains at least
one exonic and at least one intronic code, the exon-wins policy leaves no
intronic channel ("intronic_reads" or "intronic_counts") in the result;
(ii) for any configuration, the main channel "counts" is in the result
exactly when the post-policy channel set intersects the configured
`count_X_channels` subset. -/
theorem c4_determine_channels (cfg : QuantCfg) (gf : List String) (uniq : Bool)
    (hpol : cfg.eip = .exon_wins)
    (hE : ∃ f ∈ gf, f ∈ cfg.exonic_tags) (hI : ∃ f ∈ gf, f ∈ cfg.intronic_tags) :
    ("intronic_reads" ∉ determine_channels cfg gf uniq ∧
     "intronic_counts" ∉ determine_channels cfg gf uniq) ∧
    (∀ (cfg' : QuantCfg) (gf' : List String) (uniq' : Bool),
      "counts" ∈ determine_channels cfg' gf' uniq' ↔
        ∃ c ∈ dc_post cfg' gf' uniq', c ∈ cfg'.X_counts) := by
  have hpost_sub : ∀ (cfg' : QuantCfg) (gf' : List String) (uniq' : Bool) (c : String),
      c ∈ dc_post cfg' gf' uniq' →
      c = "exonic_reads" ∨ c = "exonic_counts" ∨ c = "intronic_reads" ∨
        c = "intronic_counts" := by
    intro cfg' gf' uniq' c hc
    unfold dc_post at hc
    dsimp only at hc
    have hc' : c ∈ (dc_flags cfg' gf' uniq').1 := by
      split at hc
      · exact eip_apply_subset _ _ _ hc
      · exact hc
    rcases dcFold_subset cfg' uniq' gf' ([], false, false) c hc' with h | h
    · cases h
    · exact h
  constructor
  · have he : (dc_flags cfg gf uniq).2.1 = true := dcFold_exon_flag cfg uniq gf _ hE
    have key : ∀ c : String, c = "intronic_reads" ∨ c = "intronic_counts" →
        c ∉ determine_channels cfg gf uniq := by
      intro c hcx hc
      unfold determine_channels at hc
      dsimp only at hc
      have hcpost : c ∈ dc_post cfg gf uniq := by
        split at hc
        · rcases (mem_pyInsert ..).mp hc with h | h
          · exact h
          · rcases hcx with rfl | rfl <;> exact absurd h (by decide)
        · exact hc
      unfold dc_post at hcpost
      dsimp only at hcpost
      split at hcpost
      · rw [hpol] at hcpost
        unfold eip_apply at hcpost
        have := (List.mem_filter.mp hcpost).2
        rcases hcx with rfl | rfl <;> simp at this
      · rename_i hcond
        have hi : (dc_flags cfg gf uniq).2.2 = true := by
          apply dcFold_intron_flag cfg uniq gf ([], false, false)
          · intro hmem
            rcases hmem with h | h <;> cases h
          · rcases hcx with rfl | rfl
            · exact Or.inl hcpost
            · exact Or.inr hcpost
        exact hcond (by simp [he, hi])
    exact ⟨key _ (Or.inl rfl), key _ (Or.inr rfl)⟩
  · intro cfg' gf' uniq'
    unfold determine_channels
    by_cases hany : (dc_post cfg' gf' uniq').any (fun x => cfg'.X_counts.contains x) = true
    · rw [if_pos hany]
      constructor
      · intro _
        rcases List.any_eq_true.mp hany with ⟨c, hcm, hcc⟩
        exact ⟨c, hcm, List.elem_iff.mp hcc⟩
      · intro _
        exact (mem_pyInsert ..).mpr (Or.inr rfl)
    · rw [if_neg hany]
      constructor
      · intro hc
        rcases hpost_sub cfg' gf' uniq' "counts" hc with h | h | h | h <;>
          exact absurd h (by decide)
      · rintro ⟨c, hcm, hcx⟩
        exact absurd (List.any_eq_true.mpr ⟨c, hcm, List.elem_iff.mpr hcx⟩) hany

/-- C4 witness: feature codes ["C", "I"] under the default configuration
(exon-wins): the intronic channels are excluded and "counts" is present
since the post-policy set contains "exonic_counts". -/
theorem c4_determine_channels_witness :
    "intronic_reads" ∉ determine_channels (defaultCfg (fun _ _ => 0)) ["C", "I"] true ∧
    ("counts" ∈ determine_channels (defaultCfg (fun _ _ => 0)) ["C", "I"] true ↔
      ∃ c ∈ dc_post (defaultCfg (fun _ _ => 0)) ["C", "I"] true,
        c ∈ (defaultCfg (fun _ _ => 0)).X_counts) :=
  ⟨(c4_determine_channels (defaultCfg (fun _ _ => 0)) ["C", "I"] true rfl
      (by decide) (by decide)).1.1,
   (c4_determine_channels (defaultCfg (fun _ _ => 0)) ["C", "I"] true rfl
      (by decide) (by decide)).2 (defaultCfg (fun _ _ => 0)) ["C", "I"] true⟩

theorem lastOr_cons {α : Type} (c : α) (l : List α) (d : Option α) :
    lastOr (c :: l) d = lastOr l (some c) := rfl

theorem le_foldl_max (l : List Int) : ∀ a b : Int, a ≤ b → a ≤ l.foldl max b := by
  induction l with
  | nil => exact fun a b h => h
  | cons y ys ih =>
    intro a b h
    exact ih a (max b y) (le_trans h (le_max_left ..))

theorem runMax_le (tbl : List (String × Int)) (l : List Candidate) :
    ∀ top : Int, top ≤ runMax tbl l top := by
  induction l with
  | nil => exact fun top => le_refl top
  | cons c rest ih =>
    intro top
    exact le_trans (le_max_left top (get_prio tbl c.gf)) (ih (max top (get_prio tbl c.gf)))

theorem runMax_mem (tbl : List (String × Int)) (l : List Candidate) :
    ∀ top : Int, runMax tbl l top = top ∨ ∃ c ∈ l, get_prio tbl c.gf = runMax tbl l top := by
  induction l with
  | nil => exact fun top => Or.inl rfl
  | cons c rest ih =>
    intro top
    rcases ih (max top (get_prio tbl c.gf)) with h | ⟨d, hd, hdp⟩
    · have hr : runMax tbl (c :: rest) top = max top (get_prio tbl c.gf) := h
      rcases max_cases top (get_prio tbl c.gf) with ⟨he, _⟩ | ⟨he, _⟩
      · exact Or.inl (by rw [hr, he])
      · exact Or.inr ⟨c, List.mem_cons_self .., by rw [hr, he]⟩
    · exact Or.inr ⟨d, List.mem_cons_of_mem _ hd, hdp⟩

theorem lookup_getD_nonneg :
    ∀ (tbl : List (String × Int)), (∀ pr ∈ tbl, 0 ≤ pr.2) → ∀ f : String,
      0 ≤ (tbl.lookup f).getD 0
  | [], _, _ => le_refl 0
  | (k, v) :: rest, h, f => by
    cases hk : f == k with
    | true =>
      have : List.lookup f ((k, v) :: rest) = some v := by
        simp [List.lookup, hk]
      rw [this, Option.getD_some]
      exact h (k, v) (List.mem_cons_self ..)
    | false =>
      have : List.lookup f ((k, v) :: rest) = List.lookup f rest := by
        simp [List.lookup, hk]
      rw [this]
      exact lookup_getD_nonneg rest (fun pr hpr => h pr (List.mem_cons_of_mem _ hpr)) f

theorem prioGet_nonneg (tbl : List (String × Int)) (hnn : ∀ pr ∈ tbl, 0 ≤ pr.2)
    (f : String) : 0 ≤ prioGet tbl f :=
  lookup_getD_nonneg tbl hnn f

theorem get_prio_nonneg (tbl : List (String × Int)) (hnn : ∀ pr ∈ tbl, 0 ≤ pr.2)
    (gf : List String) : 0 ≤ get_prio tbl gf := by
  unfold get_prio
  cases gf with
  | nil => simp [list_max]
  | cons f fs =>
    simp only [List.map_cons, list_max]
    exact le_foldl_max _ 0 (prioGet tbl f) (prioGet_nonneg tbl hnn f)

theorem selLoop_spec (tbl : List (String × Int)) (l : List Candidate) :
    ∀ (top : Int) (n : Nat) (kept : Option Candidate),
      selLoop tbl l top n kept =
        (runMax tbl l top,
         (if runMax tbl l top = top then n else 0) +
           (l.filter (attains tbl (runMax tbl l top))).length,
         lastOr (l.filter (attains tbl (runMax tbl l top))) kept) := by
  induction l with
  | nil =>
    intro top n kept
    simp [selLoop, runMax, lastOr]
  | cons c rest ih =>
    intro top n kept
    have hM : runMax tbl (c :: rest) top = runMax tbl rest (max top (get_prio tbl c.gf)) := rfl
    by_cases h1 : top < get_prio tbl c.gf
    · have hmx : max top (get_prio tbl c.gf) = get_prio tbl c.gf := max_eq_right h1.le
      have hstep : selLoop tbl (c :: rest) top n kept =
          selLoop tbl rest (get_prio tbl c.gf) 1 (some c) := by
        simp [selLoop, h1]
      have hMtop : runMax tbl (c :: rest) top = runMax tbl rest (get_prio tbl c.gf) := by
        rw [hM, hmx]
      rw [hstep, ih, hMtop]
      have hple : get_prio tbl c.gf ≤ runMax tbl rest (get_prio tbl c.gf) :=
        runMax_le tbl rest _
      have hMne : runMax tbl rest (get_prio tbl c.gf) ≠ top :=
        ne_of_gt (lt_of_lt_of_le h1 hple)
      simp only [Prod.mk.injEq, true_and]
      rw [if_neg hMne]
      by_cases hpM : get_prio tbl c.gf = runMax tbl rest (get_prio tbl c.gf)
      · have hb : attains tbl (runMax tbl rest (get_prio tbl c.gf)) c = true := by
          simpa [attains] using hpM
        rw [List.filter_cons, if_pos hb, List.length_cons, lastOr_cons]
        refine ⟨?_, rfl⟩
        rw [if_pos hpM.symm]
        omega
      · have hb : ¬ attains tbl (runMax tbl rest (get_prio tbl c.gf)) c = true := by
          simpa [attains] using hpM
        rw [List.filter_cons, if_neg hb]
        refine ⟨?_, ?_⟩
        · rw [if_neg (fun hE => hpM hE.symm)]
        · rcases runMax_mem tbl rest (get_prio tbl c.gf) with h | ⟨d, hd, hdp⟩
          · exact absurd h.symm hpM
          · have hdf : d ∈ rest.filter (attains tbl (runMax tbl rest (get_prio tbl c.gf))) := by
              rw [List.mem_filter]
              exact ⟨hd, by simpa [attains] using hdp⟩
            cases hfr : rest.filter (attains tbl (runMax tbl rest (get_prio tbl c.gf))) with
            | nil => rw [hfr] at hdf; cases hdf
            | cons a t => rfl
    · by_cases h2 : get_prio tbl c.gf = top
      · have hmx : max top (get_prio tbl c.gf) = top := max_eq_left (le_of_not_lt h1)
        have hstep : selLoop tbl (c :: rest) top n kept =
            selLoop tbl rest top (n + 1) (some c) := by
          simp [selLoop, h1, h2]
        have hMtop : runMax tbl (c :: rest) top = runMax tbl rest top := by
          rw [hM, hmx]
        rw [hstep, ih, hMtop]
        simp only [Prod.mk.injEq, true_and]
        by_cases hMt : runMax tbl rest top = top
        · have hpM : get_prio tbl c.gf = runMax tbl rest top := by rw [hMt, h2]
          have hb : attains tbl (runMax tbl rest top) c = true := by
            simpa [attains] using hpM
          rw [List.filter_cons, if_pos hb, List.length_cons, lastOr_cons]
          refine ⟨?_, rfl⟩
          rw [if_pos hMt, if_pos hMt]
          omega
        · have hpM : ¬ get_prio tbl c.gf = runMax tbl rest top := by
            rw [h2]
            exact fun hE => hMt hE.symm
          have hb : ¬ attains tbl (runMax tbl rest top) c = true := by
            simpa [attains] using hpM
          rw [List.filter_cons, if_neg hb]
          refine ⟨?_, ?_⟩
          · rw [if_neg hMt, if_neg hMt]
          · rcases runMax_mem tbl rest top with h | ⟨d, hd, hdp⟩
            · exact absurd h hMt
            · have hdf : d ∈ rest.filter (attains tbl (runMax tbl rest top)) := by
                rw [List.mem_filter]
                exact ⟨hd, by simpa [attains] using hdp⟩
              cases hfr : rest.filter (attains tbl (runMax tbl rest top)) with
              | nil => rw [hfr] at hdf; cases hdf
              | cons a t => rfl
      · have hlt : get_prio tbl c.gf < top := lt_of_le_of_ne (le_of_not_lt h1) h2
        have hmx : max top (get_prio tbl c.gf) = top := max_eq_left hlt.le
        have hstep : selLoop tbl (c :: rest) top n kept = selLoop tbl rest top n kept := by
          simp [selLoop, h1, h2]
        have hMtop : runMax tbl (c :: rest) top = runMax tbl rest top := by
          rw [hM, hmx]
        rw [hstep, ih, hMtop]
        have hpM : ¬ get_prio tbl c.gf = runMax tbl rest top :=
          fun hE =>
            absurd (lt_of_lt_of_le hlt (runMax_le tbl rest top))
              (by rw [hE]; exact lt_irrefl _)
        have hb : ¬ attains tbl (runMax tbl rest top) c = true := by
          simpa [attains] using hpM
        rw [List.filter_cons, if_neg hb]

theorem bundleMax_eq_runMax (tbl : List (String × Int)) (bundle : List Candidate)
    (hnn : ∀ pr ∈ tbl, 0 ≤ pr.2) (hne : bundle ≠ []) :
    bundleMax tbl bundle = runMax tbl bundle 0 := by
  cases bundle with
  | nil => exact absurd rfl hne
  | cons c rest =>
    have h0 : max 0 (get_prio tbl c.gf) = get_prio tbl c.gf :=
      max_eq_right (get_prio_nonneg tbl hnn c.gf)
    show list_max ((c :: rest).map (fun d => get_prio tbl d.gf)) = runMax tbl (c :: rest) 0
    rw [List.map_cons]
    show (rest.map (fun d => get_prio tbl d.gf)).foldl max (get_prio tbl c.gf) =
      rest.foldl (fun a d => max a (get_prio tbl d.gf)) (max 0 (get_prio tbl c.gf))
    rw [h0, List.foldl_map]

/-- C3 (confirmed, for the nonnegative priority tables the repository
configures): a single-candidate bundle is selected unconditionally; for a
multi-candidate bundle the priority strategy returns the unique candidate
attaining the maximum bundle priority when exactly one candidate attains
it, and `None` when two or more share the maximum. -/
theorem c3_alignment_selection (tbl : List (String × Int)) (bundle : List Candidate)
    (hnn : ∀ pr ∈ tbl, 0 ≤ pr.2) :
    (∀ c : Candidate, bundle = [c] → selectAlignmentStage .priority tbl bundle = some c) ∧
    (2 ≤ bundle.length →
      (∀ c ∈ bundle, get_prio tbl c.gf = bundleMax tbl bundle →
        (bundle.filter (attains tbl (bundleMax tbl bundle))).length = 1 →
        select_alignment_by_priority tbl bundle = some c) ∧
      (2 ≤ (bundle.filter (attains tbl (bundleMax tbl bundle))).length →
        select_alignment_by_priority tbl bundle = none)) := by
  constructor
  · rintro c rfl
    simp [selectAlignmentStage]
  · intro hlen
    have hne : bundle ≠ [] := by
      cases bundle with
      | nil => simp at hlen
      | cons a t => simp
    have hbm := bundleMax_eq_runMax tbl bundle hnn hne
    have hsel : select_alignment_by_priority tbl bundle =
        if (bundle.filter (attains tbl (runMax tbl bundle 0))).length = 1 then
          lastOr (bundle.filter (attains tbl (runMax tbl bundle 0))) none
        else none := by
      unfold select_alignment_by_priority
      rw [selLoop_spec]
      dsimp only
      rw [ite_self, Nat.zero_add]
    constructor
    · intro c hc hcp hcount
      rw [hbm] at hcp hcount
      rw [hsel, if_pos hcount]
      obtain ⟨d, hd⟩ := List.length_eq_one.mp hcount
      have hcA : c ∈ bundle.filter (attains tbl (runMax tbl bundle 0)) := by
        rw [List.mem_filter]
        exact ⟨hc, by simpa [attains] using hcp⟩
      rw [hd] at hcA
      rcases List.mem_singleton.mp hcA
      rw [hd]
      rfl
    · intro hcount
      rw [hbm] at hcount
      rw [hsel, if_neg (by omega)]

/-- C3 witness: a singleton bundle is passed through; a ["C"] versus ["I"]
pair selects the exonic candidate; a priority tie gives `none`. -/
theorem c3_alignment_selection_witness :
    selectAlignmentStage .priority default_alignment_priorities
        [⟨"chr1", "+", ["GeneA"], ["C"], 10⟩] =
      some ⟨"chr1", "+", ["GeneA"], ["C"], 10⟩ ∧
    select_alignment_by_priority default_alignment_priorities
        [⟨"chr1", "+", ["GeneA"], ["C"], 1⟩, ⟨"chr2", "-", ["GeneB"], ["I"], 1⟩] =
      some ⟨"chr1", "+", ["GeneA"], ["C"], 1⟩ ∧
    select_alignment_by_priority default_alignment_priorities
        [⟨"chr1", "+", ["GeneA"], ["C"], 1⟩, ⟨"chr2", "-", ["GeneB"], ["C"], 1⟩] = none :=
  ⟨(c3_alignment_selection default_alignment_priorities
      [⟨"chr1", "+", ["GeneA"], ["C"], 10⟩] (by decide)).1
      ⟨"chr1", "+", ["GeneA"], ["C"], 10⟩ rfl,
   ((c3_alignment_selection default_alignment_priorities
      [⟨"chr1", "+", ["GeneA"], ["C"], 1⟩, ⟨"chr2", "-", ["GeneB"], ["I"], 1⟩] (by decide)).2
      (by decide)).1 ⟨"chr1", "+", ["GeneA"], ["C"], 1⟩ (by decide) (by decide) (by decide),
   ((c3_alignment_selection default_alignment_priorities
      [⟨"chr1", "+", ["GeneA"], ["C"], 1⟩, ⟨"chr2", "-", ["GeneB"], ["C"], 1⟩] (by decide)).2
      (by decide)).2 (by decide)⟩

theorem ddVal_ddTouch (d : List (String × Nat)) (k k' : String) :
    ddVal (ddTouch d k) k' = ddVal d k' := by
  unfold ddTouch
  cases h : d.lookup k with
  | some v => rfl
  | none =>
    unfold ddVal
    rw [List.lookup_append]
    by_cases hk : k' = k
    · subst hk
      rw [h]
      simp [List.lookup]
    · have hnone : List.lookup k' [(k, 0)] = none := by
        have : (k' == k) = false := beq_eq_false_iff_ne.mpr hk
        simp [List.lookup, this]
      rw [hnone]
      cases d.lookup k' <;> rfl

theorem ddVal_touchFold (chs : List String) (d : List (String × Nat)) (k : String) :
    ddVal (chs.foldl ddTouch d) k = ddVal d k := by
  induction chs generalizing d with
  | nil => rfl
  | cons c cs ih =>
    rw [List.foldl_cons, ih, ddVal_ddTouch]

theorem lookup_isSome_ddTouch (d : List (String × Nat)) (k k' : String)
    (h : (d.lookup k').isSome = true) : ((ddTouch d k).lookup k').isSome = true := by
  unfold ddTouch
  cases hl : d.lookup k with
  | some v => exact h
  | none =>
    rw [List.lookup_append]
    cases hl' : d.lookup k' with
    | some v => rfl
    | none => rw [hl'] at h; cases h

theorem lookup_ddTouch_self (d : List (String × Nat)) (k : String) :
    ((ddTouch d k).lookup k).isSome = true := by
  unfold ddTouch
  cases hl : d.lookup k with
  | some v => rw [hl]; rfl
  | none =>
    rw [List.lookup_append, hl]
    simp [List.lookup]

theorem touchFold_isSome (chs : List String) (d : List (String × Nat)) (k : String)
    (h : (d.lookup k).isSome = true) :
    ((chs.foldl ddTouch d).lookup k).isSome = true := by
  induction chs generalizing d with
  | nil => exact h
  | cons c cs ih =>
    rw [List.foldl_cons]
    exact ih (ddTouch d c) (lookup_isSome_ddTouch d c k h)

theorem touchFold_covers (chs : List String) (d : List (String × Nat)) :
    ∀ k ∈ chs, ((chs.foldl ddTouch d).lookup k).isSome = true := by
  induction chs generalizing d with
  | nil => intro k hk; cases hk
  | cons c cs ih =>
    intro k hk
    rw [List.foldl_cons]
    rcases List.mem_cons.mp hk with rfl | hk'
    · exact touchFold_isSome cs (ddTouch d k) k (lookup_ddTouch_self d k)
    · exact ih (ddTouch d c) k hk'

theorem ddTouch_of_isSome (d : List (String × Nat)) (k : String)
    (h : (d.lookup k).isSome = true) : ddTouch d k = d := by
  unfold ddTouch
  cases hl : d.lookup k with
  | some v => rfl
  | none => rw [hl] at h; cases h

theorem foldl_ddTouch_id (chs : List String) (d : List (String × Nat))
    (h : ∀ k ∈ chs, (d.lookup k).isSome = true) : chs.foldl ddTouch d = d := by
  induction chs with
  | nil => rfl
  | cons c cs ih =>
    rw [List.foldl_cons, ddTouch_of_isSome d c (h c (List.mem_cons_self ..))]
    exact ih (fun k hk => h k (List.mem_cons_of_mem _ hk))

theorem touchFold_idem (chs : List String) (d : List (String × Nat)) :
    chs.foldl ddTouch (chs.foldl ddTouch d) = chs.foldl ddTouch d :=
  foldl_ddTouch_id chs _ (touchFold_covers chs d)

/-- C9 (confirmed): rebuilding the matrices from the state left behind by a
successful `make_sparse_arrays` call yields the identical matrices and
identical index lists, and leaves the state fixed.  (The first call's only
mutation is the `defaultdict` read inserting explicit zeros for channels a
count key never saw, which changes no observable value.) -/
theorem c9_build_idempotent (s : DGE) (mats : List (String × Csr)) (obs var : List String)
    (s' : DGE) (h : make_sparse_arrays s = some (mats, obs, var, s')) :
    make_sparse_arrays s' = some (mats, obs, var, s') := by
  unfold make_sparse_arrays at h
  dsimp only at h
  rcases Option.map_eq_some'.mp h with ⟨mats0, hmapm, heq⟩
  rw [Prod.mk.injEq, Prod.mk.injEq, Prod.mk.injEq] at heq
  obtain ⟨hm, ho, hv, hs⟩ := heq
  subst hm
  subst ho
  subst hv
  subst hs
  unfold make_sparse_arrays
  dsimp only
  have hrow : (s.counts.map (fun e => (e.1, s.channels.foldl ddTouch e.2))).map
      (fun e => (List.insertionSort strLe s.DGE_cells).indexOf e.1.2) =
      s.counts.map (fun e => (List.insertionSort strLe s.DGE_cells).indexOf e.1.2) := by
    rw [List.map_map]
    exact List.map_eq_map_iff.mpr (fun e _ => rfl)
  have hcol : (s.counts.map (fun e => (e.1, s.channels.foldl ddTouch e.2))).map
      (fun e => (List.insertionSort strLe s.DGE_genes).indexOf e.1.1) =
      s.counts.map (fun e => (List.insertionSort strLe s.DGE_genes).indexOf e.1.1) := by
    rw [List.map_map]
    exact List.map_eq_map_iff.mpr (fun e _ => rfl)
  have hdata : ∀ ch : String,
      (s.counts.map (fun e => (e.1, s.channels.foldl ddTouch e.2))).map
        (fun e => ddVal e.2 ch) = s.counts.map (fun e => ddVal e.2 ch) := by
    intro ch
    rw [List.map_map]
    exact List.map_eq_map_iff.mpr (fun e _ => ddVal_touchFold s.channels e.2 ch)
  have htouch : (s.counts.map (fun e => (e.1, s.channels.foldl ddTouch e.2))).map
      (fun e => (e.1, s.channels.foldl ddTouch e.2)) =
      s.counts.map (fun e => (e.1, s.channels.foldl ddTouch e.2)) := by
    rw [List.map_map]
    exact List.map_eq_map_iff.mpr (fun e _ => by
      simp only [Function.comp_apply, touchFold_idem])
  rw [hrow, hcol]
  have hfun : (fun ch => (csr_infer
        ((s.counts.map (fun e => (e.1, s.channels.foldl ddTouch e.2))).map
          (fun e => ddVal e.2 ch))
        (s.counts.map (fun e => (List.insertionSort strLe s.DGE_cells).indexOf e.1.2))
        (s.counts.map (fun e => (List.insertionSort strLe s.DGE_genes).indexOf e.1.1))).map
        (fun m => (ch, m))) =
      (fun ch => (csr_infer (s.counts.map (fun e => ddVal e.2 ch))
        (s.counts.map (fun e => (List.insertionSort strLe s.DGE_cells).indexOf e.1.2))
        (s.counts.map (fun e => (List.insertionSort strLe s.DGE_genes).indexOf e.1.1))).map
        (fun m => (ch, m))) := by
    funext ch
    rw [hdata ch]
  rw [hfun, hmapm, Option.map_some', htouch]

theorem charsLe_total : ∀ a b : List Char, charsLe a b = true ∨ charsLe b a = true
  | [], _ => Or.inl rfl
  | _ :: _, [] => Or.inr rfl
  | a :: as, b :: bs => by
    unfold charsLe
    by_cases h1 : a.toNat < b.toNat
    · left
      rw [if_pos h1]
    · by_cases h2 : b.toNat < a.toNat
      · right
        rw [if_pos h2]
      · rcases charsLe_total as bs with h | h
        · left
          rw [if_neg h1, if_neg h2]
          exact h
        · right
          rw [if_neg h2, if_neg h1]
          exact h

theorem charsLe_trans : ∀ a b c : List Char,
    charsLe a b = true → charsLe b c = true → charsLe a c = true
  | [], _, _, _, _ => rfl
  | a :: as, [], c, h1, _ => by
    rw [charsLe] at h1
    cases h1
  | a :: as, b :: bs, [], _, h2 => by
    rw [charsLe] at h2
    cases h2
  | a :: as, b :: bs, c :: cs, h1, h2 => by
    rw [charsLe] at h1 h2 ⊢
    by_cases hab : a.toNat < b.toNat
    · by_cases hbc : b.toNat < c.toNat
      · rw [if_pos (lt_trans hab hbc)]
      · by_cases hcb : c.toNat < b.toNat
        · rw [if_neg hbc, if_pos hcb] at h2
          cases h2
        · rw [if_pos (show a.toNat < c.toNat by omega)]
    · by_cases hba : b.toNat < a.toNat
      · rw [if_neg hab, if_pos hba] at h1
        cases h1
      · rw [if_neg hab, if_neg hba] at h1
        by_cases hbc : b.toNat < c.toNat
        · rw [if_pos (show a.toNat < c.toNat by omega)]
        · by_cases hcb : c.toNat < b.toNat
          · rw [if_neg hbc, if_pos hcb] at h2
            cases h2
          · rw [if_neg hbc, if_neg hcb] at h2
            rw [if_neg (show ¬ a.toNat < c.toNat by omega),
              if_neg (show ¬ c.toNat < a.toNat by omega)]
            exact charsLe_trans as bs cs h1 h2

instance : IsTotal String strLe := ⟨fun a b => charsLe_total a.data b.data⟩

instance : IsTrans String strLe := ⟨fun a b c => charsLe_trans a.data b.data c.data⟩

theorem WF_init (channels : List String) (allowed : Option (List String)) :
    (DGE.init channels allowed).WF := by
  refine ⟨List.nodup_nil, List.nodup_nil, List.nodup_nil, ?_, ?_, ?_⟩ <;>
    intro x hx <;> cases hx

theorem cdIncr_keys (cs : List ((String × String) × List (String × Nat)))
    (key : String × String) (ch : String) :
    (cdIncr cs key ch).map (fun e => e.1) =
      if key ∈ cs.map (fun e => e.1) then cs.map (fun e => e.1)
      else cs.map (fun e => e.1) ++ [key] := by
  induction cs with
  | nil => simp [cdIncr]
  | cons e rest ih =>
    obtain ⟨k', d⟩ := e
    by_cases hk : k' = key
    · subst hk
      simp [cdIncr]
    · have hstep : cdIncr ((k', d) :: rest) key ch = (k', d) :: cdIncr rest key ch := by
        simp [cdIncr, hk]
      rw [hstep, List.map_cons, ih, List.map_cons]
      by_cases hmem : key ∈ rest.map (fun e => e.1)
      · rw [if_pos hmem, if_pos (List.mem_cons_of_mem _ hmem)]
      · rw [if_neg hmem,
          if_neg (fun hc => by
            rcases List.mem_cons.mp hc with h | h
            · exact hk h.symm
            · exact hmem h)]
        rfl

theorem mem_cdIncr_keys (cs : List ((String × String) × List (String × Nat)))
    (key : String × String) (ch : String) :
    key ∈ (cdIncr cs key ch).map (fun e => e.1) := by
  rw [cdIncr_keys]
  by_cases hmem : key ∈ cs.map (fun e => e.1)
  · rw [if_pos hmem]
    exact hmem
  · rw [if_neg hmem]
    exact List.mem_append.mpr (Or.inr (List.mem_singleton.mpr rfl))

theorem cdFold_keys (chl : List String) (cs : List ((String × String) × List (String × Nat)))
    (key : String × String) (hne : chl ≠ []) :
    (chl.foldl (fun acc ch => cdIncr acc key ch) cs).map (fun e => e.1) =
      if key ∈ cs.map (fun e => e.1) then cs.map (fun e => e.1)
      else cs.map (fun e => e.1) ++ [key] := by
  induction chl generalizing cs with
  | nil => exact absurd rfl hne
  | cons ch rest ih =>
    rw [List.foldl_cons]
    cases hre : rest with
    | nil =>
      exact cdIncr_keys cs key ch
    | cons r rs =>
      rw [← hre, ih (cdIncr cs key ch) (by rw [hre]; exact List.cons_ne_nil r rs)]
      rw [if_pos (mem_cdIncr_keys cs key ch), cdIncr_keys]

theorem WF_add_read (s : DGE) (hwf : s.WF) (gene cell : String) (chl : List String) :
    (s.add_read gene cell chl).WF := by
  obtain ⟨hnk, hnc, hng, hbound, hcovc, hcovg⟩ := hwf
  by_cases hch : chl = []
  · subst hch
    simpa [DGE.add_read] using ⟨hnk, hnc, hng, hbound, hcovc, hcovg⟩
  · have hstep : s.add_read gene cell chl =
        { s with
          DGE_cells := pyInsert s.DGE_cells (mapCell s.allowed_bcs cell)
          DGE_genes := pyInsert s.DGE_genes gene
          counts := chl.foldl (fun cs ch => cdIncr cs (gene, mapCell s.allowed_bcs cell) ch)
            s.counts } := by
      simp [DGE.add_read, hch]
    rw [hstep]
    have hkeys := cdFold_keys chl s.counts (gene, mapCell s.allowed_bcs cell) hch
    by_cases hmem : (gene, mapCell s.allowed_bcs cell) ∈ s.counts.map (fun e => e.1)
    · rw [if_pos hmem] at hkeys
      refine ⟨?_, nodup_pyInsert _ _ hnc, nodup_pyInsert _ _ hng, ?_, ?_, ?_⟩
      · rw [hkeys]
        exact hnk
      · intro k hk
        rw [hkeys] at hk
        exact ⟨(mem_pyInsert ..).mpr (Or.inl (hbound k hk).1),
          (mem_pyInsert ..).mpr (Or.inl (hbound k hk).2)⟩
      · intro c hc
        rcases (mem_pyInsert ..).mp hc with h | h
        · obtain ⟨k, hk, hkc⟩ := hcovc c h
          rw [hkeys]
          exact ⟨k, hk, hkc⟩
        · rw [hkeys]
          exact ⟨(gene, mapCell s.allowed_bcs cell), hmem, h.symm⟩
      · intro g hg
        rcases (mem_pyInsert ..).mp hg with h | h
        · obtain ⟨k, hk, hkg⟩ := hcovg g h
          rw [hkeys]
          exact ⟨k, hk, hkg⟩
        · rw [hkeys]
          exact ⟨(gene, mapCell s.allowed_bcs cell), hmem, h.symm⟩
    · rw [if_neg hmem] at hkeys
      refine ⟨?_, nodup_pyInsert _ _ hnc, nodup_pyInsert _ _ hng, ?_, ?_, ?_⟩
      · rw [hkeys]
        simp [List.nodup_append, hnk, hmem]
      · intro k hk
        rw [hkeys] at hk
        rcases List.mem_append.mp hk with h | h
        · exact ⟨(mem_pyInsert ..).mpr (Or.inl (hbound k h).1),
            (mem_pyInsert ..).mpr (Or.inl (hbound k h).2)⟩
        · rcases List.mem_singleton.mp h with rfl
          exact ⟨(mem_pyInsert ..).mpr (Or.inr rfl), (mem_pyInsert ..).mpr (Or.inr rfl)⟩
      · intro c hc
        rcases (mem_pyInsert ..).mp hc with h | h
        · obtain ⟨k, hk, hkc⟩ := hcovc c h
          rw [hkeys]
          exact ⟨k, List.mem_append.mpr (Or.inl hk), hkc⟩
        · rw [hkeys]
          exact ⟨(gene, mapCell s.allowed_bcs cell),
            List.mem_append.mpr (Or.inr (List.mem_singleton.mpr rfl)), h.symm⟩
      · intro g hg
        rcases (mem_pyInsert ..).mp hg with h | h
        · obtain ⟨k, hk, hkg⟩ := hcovg g h
          rw [hkeys]
          exact ⟨k, List.mem_append.mpr (Or.inl hk), hkg⟩
        · rw [hkeys]
          exact ⟨(gene, mapCell s.allowed_bcs cell),
            List.mem_append.mpr (Or.inr (List.mem_singleton.mpr rfl)), h.symm⟩

theorem foldr_max_le (l : List Nat) (b : Nat) (h : ∀ x ∈ l, x ≤ b) : l.foldr max 0 ≤ b := by
  induction l with
  | nil => exact Nat.zero_le b
  | cons a t ih =>
    rw [List.foldr_cons]
    exact max_le (h a (List.mem_cons_self ..)) (ih (fun x hx => h x (List.mem_cons_of_mem _ hx)))

theorem le_foldr_max (l : List Nat) (x : Nat) (h : x ∈ l) : x ≤ l.foldr max 0 := by
  induction l with
  | nil => cases h
  | cons a t ih =>
    rw [List.foldr_cons]
    rcases List.mem_cons.mp h with rfl | hm
    · exact le_max_left ..
    · exact le_trans (ih hm) (le_max_right ..)

theorem foldr_max_eq (l : List Nat) (b : Nat) (hub : ∀ x ∈ l, x ≤ b) (hmem : b ∈ l) :
    l.foldr max 0 = b :=
  le_antisymm (foldr_max_le l b hub) (le_foldr_max l b hmem)

theorem filter_key_of_lookup (cs : List ((String × String) × List (String × Nat)))
    (k : String × String) (hnd : (cs.map (fun e => e.1)).Nodup) :
    cs.filter (fun e => e.1 == k) =
      match cs.lookup k with
      | some d => [(k, d)]
      | none => [] := by
  induction cs with
  | nil => rfl
  | cons e rest ih =>
    obtain ⟨k', d⟩ := e
    rw [List.map_cons, List.nodup_cons] at hnd
    obtain ⟨hknot, hndrest⟩ := hnd
    by_cases hk : k' = k
    · subst hk
      have hfr : rest.filter (fun e => e.1 == k') = [] := by
        rw [List.filter_eq_nil_iff]
        intro e he hpe
        exact hknot (by
          rw [List.mem_map]
          exact ⟨e, he, (beq_iff_eq ..).mp hpe⟩)
      have hflt : ((k', d) :: rest).filter (fun e => e.1 == k') = [(k', d)] := by
        rw [List.filter_cons, if_pos (by simp), hfr]
      have hlk : List.lookup k' ((k', d) :: rest) = some d := by
        simp [List.lookup]
      rw [hflt, hlk]
    · have hflt : ((k', d) :: rest).filter (fun e => e.1 == k) =
          rest.filter (fun e => e.1 == k) := by
        rw [List.filter_cons,
          if_neg (by simp only [beq_iff_eq]; exact fun hc => hk hc)]
      have hlk : List.lookup k ((k', d) :: rest) = List.lookup k rest := by
        have : (k == k') = false := beq_eq_false_iff_ne.mpr (fun hc => hk hc.symm)
        simp [List.lookup, this]
      rw [hflt, hlk]
      exact ih hndrest

theorem mapM_option_of_forall_some {α β : Type} (f : α → Option β) (g : α → β)
    (l : List α) (h : ∀ a ∈ l, f a = some (g a)) : l.mapM f = some (l.map g) := by
  induction l with
  | nil => rfl
  | cons a t ih =>
    rw [List.mapM_cons, h a (List.mem_cons_self ..),
      ih (fun b hb => h b (List.mem_cons_of_mem _ hb))]
    rfl

theorem indexOf_eq_iff_getD {l : List String} (hnd : l.Nodup) {a : String} (ha : a ∈ l)
    {i : Nat} (hi : i < l.length) : l.indexOf a = i ↔ a = l.getD i "" := by
  rw [List.getD_eq_getElem l "" hi]
  constructor
  · rintro rfl
    exact (List.getElem_indexOf (List.indexOf_lt_length.mpr ha)).symm
  · rintro rfl
    exact List.indexOf_getElem hnd i hi

theorem csr_entry_eq_getCount (s : DGE) (hwf : s.WF) (ch : String) (i j : Nat)
    (hi : i < (List.insertionSort strLe s.DGE_cells).length)
    (hj : j < (List.insertionSort strLe s.DGE_genes).length) :
    Csr.entry
      ⟨s.counts.map (fun e => ddVal e.2 ch),
       s.counts.map (fun e => (List.insertionSort strLe s.DGE_cells).indexOf e.1.2),
       s.counts.map (fun e => (List.insertionSort strLe s.DGE_genes).indexOf e.1.1)⟩ i j =
    getCount s ((List.insertionSort strLe s.DGE_genes).getD j "")
      ((List.insertionSort strLe s.DGE_cells).getD i "") ch := by
  obtain ⟨hnk, hnc, hng, hbound, hcovc, hcovg⟩ := hwf
  have hobsnd : (List.insertionSort strLe s.DGE_cells).Nodup :=
    (List.perm_insertionSort strLe s.DGE_cells).symm.nodup hnc
  have hvarnd : (List.insertionSort strLe s.DGE_genes).Nodup :=
    (List.perm_insertionSort strLe s.DGE_genes).symm.nodup hng
  unfold Csr.entry
  dsimp only
  rw [List.zip_map', List.zip_map', List.filter_map, List.foldl_map]
  have hcond : ∀ e ∈ s.counts,
      (((fun t : Nat × Nat × Nat => t.2.1 == i && t.2.2 == j) ∘
        (fun e => (ddVal e.2 ch,
          (List.insertionSort strLe s.DGE_cells).indexOf e.1.2,
          (List.insertionSort strLe s.DGE_genes).indexOf e.1.1))) e) =
      (e.1 == ((List.insertionSort strLe s.DGE_genes).getD j "",
        (List.insertionSort strLe s.DGE_cells).getD i "")) := by
    intro e he
    have hkeymem : e.1 ∈ s.counts.map (fun e => e.1) := List.mem_map.mpr ⟨e, he, rfl⟩
    have hcellmem : e.1.2 ∈ List.insertionSort strLe s.DGE_cells :=
      (List.mem_insertionSort strLe).mpr (hbound e.1 hkeymem).1
    have hgenemem : e.1.1 ∈ List.insertionSort strLe s.DGE_genes :=
      (List.mem_insertionSort strLe).mpr (hbound e.1 hkeymem).2
    refine Bool.coe_iff_coe.mp ?_
    simp only [Function.comp_apply, Bool.and_eq_true, beq_iff_eq, Prod.ext_iff]
    rw [indexOf_eq_iff_getD hobsnd hcellmem hi, indexOf_eq_iff_getD hvarnd hgenemem hj]
    constructor
    · rintro ⟨h1, h2⟩
      exact ⟨h2, h1⟩
    · rintro ⟨h1, h2⟩
      exact ⟨h2, h1⟩
  rw [List.filter_congr hcond, filter_key_of_lookup s.counts _ hnk]
  unfold getCount
  cases hlk : s.counts.lookup ((List.insertionSort strLe s.DGE_genes).getD j "",
      (List.insertionSort strLe s.DGE_cells).getD i "") with
  | some d => simp
  | none => rfl

theorem csr_rows_max (s : DGE) (hwf : s.WF) (hne : s.counts ≠ []) :
    (s.counts.map
        (fun e => (List.insertionSort strLe s.DGE_cells).indexOf e.1.2)).foldr max 0 =
      (List.insertionSort strLe s.DGE_cells).length - 1 := by
  obtain ⟨hnk, hnc, hng, hbound, hcovc, hcovg⟩ := hwf
  have hobsnd : (List.insertionSort strLe s.DGE_cells).Nodup :=
    (List.perm_insertionSort strLe s.DGE_cells).symm.nodup hnc
  apply foldr_max_eq
  · intro x hx
    rcases List.mem_map.mp hx with ⟨e, he, rfl⟩
    have hcellmem : e.1.2 ∈ List.insertionSort strLe s.DGE_cells :=
      (List.mem_insertionSort strLe).mpr
        (hbound e.1 (List.mem_map.mpr ⟨e, he, rfl⟩)).1
    have := List.indexOf_lt_length.mpr hcellmem
    omega
  · obtain ⟨e0, he0⟩ := List.exists_mem_of_ne_nil s.counts hne
    have hobsne : List.insertionSort strLe s.DGE_cells ≠ [] := by
      apply List.ne_nil_of_mem
      exact (List.mem_insertionSort strLe).mpr
        (hbound e0.1 (List.mem_map.mpr ⟨e0, he0, rfl⟩)).1
    have hlpos : 0 < (List.insertionSort strLe s.DGE_cells).length :=
      List.length_pos.mpr hobsne
    have hlast : (List.insertionSort strLe s.DGE_cells).length - 1 <
        (List.insertionSort strLe s.DGE_cells).length := by omega
    have hc0cells : (List.insertionSort strLe s.DGE_cells).getD
        ((List.insertionSort strLe s.DGE_cells).length - 1) "" ∈ s.DGE_cells := by
      rw [List.getD_eq_getElem _ "" hlast]
      exact (List.mem_insertionSort strLe).mp (List.getElem_mem ..)
    obtain ⟨k, hk, hkc⟩ := hcovc _ hc0cells
    rcases List.mem_map.mp hk with ⟨e, he, rfl⟩
    refine List.mem_map.mpr ⟨e, he, ?_⟩
    have hmem0 : (List.insertionSort strLe s.DGE_cells).getD
        ((List.insertionSort strLe s.DGE_cells).length - 1) "" ∈
        List.insertionSort strLe s.DGE_cells := by
      rw [List.getD_eq_getElem _ "" hlast]
      exact List.getElem_mem ..
    rw [hkc]
    exact (indexOf_eq_iff_getD hobsnd hmem0 hlast).mpr rfl

theorem csr_cols_max (s : DGE) (hwf : s.WF) (hne : s.counts ≠ []) :
    (s.counts.map
        (fun e => (List.insertionSort strLe s.DGE_genes).indexOf e.1.1)).foldr max 0 =
      (List.insertionSort strLe s.DGE_genes).length - 1 := by
  obtain ⟨hnk, hnc, hng, hbound, hcovc, hcovg⟩ := hwf
  have hvarnd : (List.insertionSort strLe s.DGE_genes).Nodup :=
    (List.perm_insertionSort strLe s.DGE_genes).symm.nodup hng
  apply foldr_max_eq
  · intro x hx
    rcases List.mem_map.mp hx with ⟨e, he, rfl⟩
    have hgenemem : e.1.1 ∈ List.insertionSort strLe s.DGE_genes :=
      (List.mem_insertionSort strLe).mpr
        (hbound e.1 (List.mem_map.mpr ⟨e, he, rfl⟩)).2
    have := List.indexOf_lt_length.mpr hgenemem
    omega
  · obtain ⟨e0, he0⟩ := List.exists_mem_of_ne_nil s.counts hne
    have hvarne : List.insertionSort strLe s.DGE_genes ≠ [] := by
      apply List.ne_nil_of_mem
      exact (List.mem_insertionSort strLe).mpr
        (hbound e0.1 (List.mem_map.mpr ⟨e0, he0, rfl⟩)).2
    have hlpos : 0 < (List.insertionSort strLe s.DGE_genes).length :=
      List.length_pos.mpr hvarne
    have hlast : (List.insertionSort strLe s.DGE_genes).length - 1 <
        (List.insertionSort strLe s.DGE_genes).length := by omega
    have hg0genes : (List.insertionSort strLe s.DGE_genes).getD
        ((List.insertionSort strLe s.DGE_genes).length - 1) "" ∈ s.DGE_genes := by
      rw [List.getD_eq_getElem _ "" hlast]
      exact (List.mem_insertionSort strLe).mp (List.getElem_mem ..)
    obtain ⟨k, hk, hkg⟩ := hcovg _ hg0genes
    rcases List.mem_map.mp hk with ⟨e, he, rfl⟩
    refine List.mem_map.mpr ⟨e, he, ?_⟩
    have hmem0 : (List.insertionSort strLe s.DGE_genes).getD
        ((List.insertionSort strLe s.DGE_genes).length - 1) "" ∈
        List.insertionSort strLe s.DGE_genes := by
      rw [List.getD_eq_getElem _ "" hlast]
      exact List.getElem_mem ..
    rw [hkg]
    exact (indexOf_eq_iff_getD hvarnd hmem0 hlast).mpr rfl

/-- C5 (amended): on every well-formed aggregator state holding at least
one recorded count, `make_sparse_arrays` succeeds and returns: the
lexicographically sorted observed-cell and observed-gene lists as shared
row and column indices; one matrix per configured channel, in channel
order, even for channels with zero counts everywhere; each of shape
(number of observed cells, number of observed genes); with entry (i, j)
equal to the accumulated count of CountKey (gene_j, cell_i) on that
channel, non-zero exactly at the CountKeys that recorded a non-zero count.
(The amendment excludes the empty state: there scipy cannot infer the
matrix dimensions and the builder raises — see `c5_counterexample`.) -/
theorem c5_make_sparse_arrays (s : DGE) (hwf : s.WF) (hne : s.counts ≠ []) :
    ∃ (mats : List (String × Csr)) (obs var : List String) (s' : DGE),
      make_sparse_arrays s = some (mats, obs, var, s') ∧
      obs = List.insertionSort strLe s.DGE_cells ∧
      var = List.insertionSort strLe s.DGE_genes ∧
      List.Sorted strLe obs ∧ obs.Perm s.DGE_cells ∧
      List.Sorted strLe var ∧ var.Perm s.DGE_genes ∧
      mats.map (fun p => p.1) = s.channels ∧
      ∀ p ∈ mats,
        p.2.shape = (obs.length, var.length) ∧
        ∀ i j : Nat, i < obs.length → j < var.length →
          p.2.entry i j = getCount s (var.getD j "") (obs.getD i "") p.1 ∧
          (p.2.entry i j ≠ 0 ↔
            ∃ e ∈ s.counts, e.1 = (var.getD j "", obs.getD i "") ∧ ddVal e.2 p.1 ≠ 0) := by
  have hrowsne : s.counts.map
      (fun e => (List.insertionSort strLe s.DGE_cells).indexOf e.1.2) ≠ [] := by
    intro hc
    exact hne (List.map_eq_nil_iff.mp hc)
  have hcolsne : s.counts.map
      (fun e => (List.insertionSort strLe s.DGE_genes).indexOf e.1.1) ≠ [] := by
    intro hc
    exact hne (List.map_eq_nil_iff.mp hc)
  refine ⟨s.channels.map (fun ch =>
      (ch, (⟨s.counts.map (fun e => ddVal e.2 ch),
        s.counts.map (fun e => (List.insertionSort strLe s.DGE_cells).indexOf e.1.2),
        s.counts.map (fun e => (List.insertionSort strLe s.DGE_genes).indexOf e.1.1)⟩ : Csr))),
    List.insertionSort strLe s.DGE_cells, List.insertionSort strLe s.DGE_genes,
    { s with counts := s.counts.map (fun e => (e.1, s.channels.foldl ddTouch e.2)) },
    ?_, rfl, rfl, List.sorted_insertionSort strLe s.DGE_cells,
    List.perm_insertionSort strLe s.DGE_cells,
    List.sorted_insertionSort strLe s.DGE_genes,
    List.perm_insertionSort strLe s.DGE_genes, ?_, ?_⟩
  · unfold make_sparse_arrays
    dsimp only
    rw [mapM_option_of_forall_some
      (fun ch => (csr_infer (s.counts.map (fun e => ddVal e.2 ch))
          (s.counts.map (fun e => (List.insertionSort strLe s.DGE_cells).indexOf e.1.2))
          (s.counts.map (fun e => (List.insertionSort strLe s.DGE_genes).indexOf e.1.1))).map
        (fun m => (ch, m)))
      (fun ch => (ch, (⟨s.counts.map (fun e => ddVal e.2 ch),
          s.counts.map (fun e => (List.insertionSort strLe s.DGE_cells).indexOf e.1.2),
          s.counts.map (fun e => (List.insertionSort strLe s.DGE_genes).indexOf e.1.1)⟩ : Csr)))
      s.channels
      (fun ch _ => by
        dsimp only
        unfold csr_infer
        rw [if_neg (by
          rintro (h | h)
          · exact hrowsne h
          · exact hcolsne h)]
        rfl)]
    rfl
  · rw [List.map_map]
    show s.channels.map (fun ch => ch) = s.channels
    simp
  · intro p hp
    rcases List.mem_map.mp hp with ⟨ch, hch, rfl⟩
    constructor
    · have hobsne : List.insertionSort strLe s.DGE_cells ≠ [] := by
        obtain ⟨e0, he0⟩ := List.exists_mem_of_ne_nil s.counts hne
        exact List.ne_nil_of_mem ((List.mem_insertionSort strLe).mpr
          (hwf.2.2.2.1 e0.1 (List.mem_map.mpr ⟨e0, he0, rfl⟩)).1)
      have hvarne : List.insertionSort strLe s.DGE_genes ≠ [] := by
        obtain ⟨e0, he0⟩ := List.exists_mem_of_ne_nil s.counts hne
        exact List.ne_nil_of_mem ((List.mem_insertionSort strLe).mpr
          (hwf.2.2.2.1 e0.1 (List.mem_map.mpr ⟨e0, he0, rfl⟩)).2)
      have h1 : 0 < (List.insertionSort strLe s.DGE_cells).length :=
        List.length_pos.mpr hobsne
      have h2 : 0 < (List.insertionSort strLe s.DGE_genes).length :=
        List.length_pos.mpr hvarne
      unfold Csr.shape
      dsimp only
      rw [csr_rows_max s hwf hne, csr_cols_max s hwf hne]
      rw [Prod.mk.injEq]
      omega
    · intro i j hi hj
      have hentry := csr_entry_eq_getCount s hwf ch i j hi hj
      refine ⟨hentry, ?_⟩
      rw [hentry]
      unfold getCount
      cases hlk : s.counts.lookup ((List.insertionSort strLe s.DGE_genes).getD j "",
          (List.insertionSort strLe s.DGE_cells).getD i "") with
      | some d =>
        have hflt := filter_key_of_lookup s.counts
          ((List.insertionSort strLe s.DGE_genes).getD j "",
           (List.insertionSort strLe s.DGE_cells).getD i "") hwf.1
        rw [hlk] at hflt
        constructor
        · intro hnz
          refine ⟨(((List.insertionSort strLe s.DGE_genes).getD j "",
              (List.insertionSort strLe s.DGE_cells).getD i ""), d), ?_, rfl, hnz⟩
          apply List.mem_of_mem_filter (p := fun e =>
            e.1 == ((List.insertionSort strLe s.DGE_genes).getD j "",
              (List.insertionSort strLe s.DGE_cells).getD i ""))
          rw [hflt]
          exact List.mem_singleton.mpr rfl
        · rintro ⟨e, he, hkey, hnz⟩
          have hef : e ∈ s.counts.filter (fun e =>
              e.1 == ((List.insertionSort strLe s.DGE_genes).getD j "",
                (List.insertionSort strLe s.DGE_cells).getD i "")) := by
            rw [List.mem_filter]
            exact ⟨he, by simpa using hkey⟩
          rw [hflt] at hef
          rcases List.mem_singleton.mp hef
          exact hnz
      | none =>
        have hflt := filter_key_of_lookup s.counts
          ((List.insertionSort strLe s.DGE_genes).getD j "",
           (List.insertionSort strLe s.DGE_cells).getD i "") hwf.1
        rw [hlk] at hflt
        constructor
        · intro hnz
          exact absurd rfl hnz
        · rintro ⟨e, he, hkey, hnz⟩
          have hef : e ∈ s.counts.filter (fun e =>
              e.1 == ((List.insertionSort strLe s.DGE_genes).getD j "",
                (List.insertionSort strLe s.DGE_cells).getD i "")) := by
            rw [List.mem_filter]
            exact ⟨he, by simpa using hkey⟩
          rw [hflt] at hef
          cases hef

/-- C5 counterexample: the freshly initialised aggregator (a well-formed
aggregator state, as the claim's "every aggregator state" includes) makes
`make_sparse_arrays` fail: with no recorded count the index arrays are
empty and scipy's shape inference raises `ValueError` instead of emitting
matrices of shape (0, 0). -/
theorem c5_counterexample :
    DGE.WF (DGE.init default_channels none) ∧
    make_sparse_arrays (DGE.init default_channels none) = none := by
  constructor
  · exact WF_init default_channels none
  · decide

/-- C5 witness: a state holding one counted read for ("GeneA", "AAA"). -/
theorem c5_make_sparse_arrays_witness :
    DGE.WF ⟨["counts", "exonic_reads"], none,
      [(("GeneA", "AAA"), [("counts", 1), ("exonic_reads", 1)])], ["AAA"], ["GeneA"]⟩ ∧
    ∃ (mats : List (String × Csr)) (obs var : List String) (s' : DGE),
      make_sparse_arrays ⟨["counts", "exonic_reads"], none,
          [(("GeneA", "AAA"), [("counts", 1), ("exonic_reads", 1)])], ["AAA"], ["GeneA"]⟩ =
        some (mats, obs, var, s') ∧
      obs = List.insertionSort strLe ["AAA"] ∧
      var = List.insertionSort strLe ["GeneA"] ∧
      List.Sorted strLe obs ∧ obs.Perm ["AAA"] ∧
      List.Sorted strLe var ∧ var.Perm ["GeneA"] ∧
      mats.map (fun p => p.1) = ["counts", "exonic_reads"] ∧
      ∀ p ∈ mats,
        p.2.shape = (obs.length, var.length) ∧
        ∀ i j : Nat, i < obs.length → j < var.length →
          p.2.entry i j =
            getCount ⟨["counts", "exonic_reads"], none,
              [(("GeneA", "AAA"), [("counts", 1), ("exonic_reads", 1)])], ["AAA"], ["GeneA"]⟩
              (var.getD j "") (obs.getD i "") p.1 ∧
          (p.2.entry i j ≠ 0 ↔
            ∃ e ∈ [(("GeneA", "AAA"), [("counts", 1), ("exonic_reads", 1)])],
              e.1 = (var.getD j "", obs.getD i "") ∧ ddVal e.2 p.1 ≠ 0) :=
  ⟨by decide,
   c5_make_sparse_arrays ⟨["counts", "exonic_reads"], none,
      [(("GeneA", "AAA"), [("counts", 1), ("exonic_reads", 1)])], ["AAA"], ["GeneA"]⟩
     (by decide) (by decide)⟩

theorem ddVal_ddIncr (d : List (String × Nat)) (ch' ch : String) :
    ddVal (ddIncr d ch') ch = ddVal d ch + (if ch' = ch then 1 else 0) := by
  induction d with
  | nil =>
    by_cases h : ch' = ch
    · subst h
      simp [ddIncr, ddVal, List.lookup]
    · have hb : (ch == ch') = false := beq_eq_false_iff_ne.mpr (fun hc => h hc.symm)
      simp [ddIncr, ddVal, List.lookup, hb, h]
  | cons e rest ih =>
    obtain ⟨k, v⟩ := e
    by_cases hk : k = ch'
    · subst hk
      have hstep : ddIncr ((k, v) :: rest) k = (k, v + 1) :: rest := by
        simp [ddIncr]
      rw [hstep]
      by_cases hc : k = ch
      · subst hc
        simp [ddVal, List.lookup]
      · have hb : (ch == k) = false := beq_eq_false_iff_ne.mpr (fun hcc => hc hcc.symm)
        simp [ddVal, List.lookup, hb, hc]
    · have hstep : ddIncr ((k, v) :: rest) ch' = (k, v) :: ddIncr rest ch' := by
        simp [ddIncr, hk]
      rw [hstep]
      by_cases hc : k = ch
      · subst hc
        have hne : ¬ ch' = k := fun hcc => hk hcc.symm
        simp [ddVal, List.lookup, hne]
      · have hb : (ch == k) = false := beq_eq_false_iff_ne.mpr (fun hcc => hc hcc.symm)
        have ih' := ih
        unfold ddVal at ih' ⊢
        simp only [List.lookup, hb, cond_false]
        exact ih'

theorem cdIncr_total (cs : List ((String × String) × List (String × Nat)))
    (key : String × String) (ch' ch : String) :
    ((cdIncr cs key ch').map (fun e => ddVal e.2 ch)).sum =
      (cs.map (fun e => ddVal e.2 ch)).sum + (if ch' = ch then 1 else 0) := by
  induction cs with
  | nil =>
    by_cases h : ch' = ch
    · subst h
      simp [cdIncr, ddVal, List.lookup]
    · have hb : (ch == ch') = false := beq_eq_false_iff_ne.mpr (fun hc => h hc.symm)
      simp [cdIncr, ddVal, List.lookup, hb, h]
  | cons e rest ih =>
    obtain ⟨k, d⟩ := e
    by_cases hk : k = key
    · subst hk
      have hstep : cdIncr ((k, d) :: rest) k ch' = (k, ddIncr d ch') :: rest := by
        simp [cdIncr]
      rw [hstep, List.map_cons, List.map_cons, List.sum_cons, List.sum_cons]
      dsimp only
      rw [ddVal_ddIncr]
      omega
    · have hstep : cdIncr ((k, d) :: rest) key ch' = (k, d) :: cdIncr rest key ch' := by
        simp [cdIncr, hk]
      rw [hstep, List.map_cons, List.map_cons, List.sum_cons, List.sum_cons, ih]
      omega

theorem cdFold_total (chl : List String) (cs : List ((String × String) × List (String × Nat)))
    (key : String × String) (ch : String) :
    ((chl.foldl (fun acc c => cdIncr acc key c) cs).map (fun e => ddVal e.2 ch)).sum =
      (cs.map (fun e => ddVal e.2 ch)).sum + chl.count ch := by
  induction chl generalizing cs with
  | nil => simp
  | cons c rest ih =>
    rw [List.foldl_cons, ih, cdIncr_total, List.count_cons]
    simp only [beq_iff_eq]
    by_cases hc : c = ch
    · subst hc
      simp only [if_pos rfl]
      omega
    · rw [if_neg hc]
      omega

theorem add_read_total (s : DGE) (gene cell : String) (chl : List String) (ch : String) :
    channelTotal (s.add_read gene cell chl) ch = channelTotal s ch + chl.count ch := by
  by_cases hch : chl = []
  · subst hch
    simp [DGE.add_read, channelTotal]
  · unfold DGE.add_read channelTotal
    rw [if_neg hch]
    exact cdFold_total chl s.counts (gene, mapCell s.allowed_bcs cell) ch

theorem nodup_dcFold (cfg : QuantCfg) (uniq : Bool) (gf : List String)
    (acc : List String × Bool × Bool) (hacc : acc.1.Nodup) :
    (gf.foldl (dcStep cfg uniq) acc).1.Nodup := by
  induction gf generalizing acc with
  | nil => exact hacc
  | cons f rest ih =>
    rw [List.foldl_cons]
    refine ih (dcStep cfg uniq acc f) ?_
    unfold dcStep
    split
    · cases uniq <;> simp only [] <;>
        first
        | exact nodup_pyInsert _ _ hacc
        | exact nodup_pyInsert _ _ (nodup_pyInsert _ _ hacc)
    · split
      · cases uniq <;> simp only [] <;>
          first
          | exact nodup_pyInsert _ _ hacc
          | exact nodup_pyInsert _ _ (nodup_pyInsert _ _ hacc)
      · exact hacc

theorem determine_channels_nodup (cfg : QuantCfg) (gf : List String) (uniq : Bool) :
    (determine_channels cfg gf uniq).Nodup := by
  have hpost : (dc_post cfg gf uniq).Nodup := by
    unfold dc_post
    dsimp only
    split
    · cases hp : cfg.eip <;> unfold eip_apply <;>
        first
        | exact (nodup_dcFold cfg uniq gf ([], false, false) List.nodup_nil).filter _
        | exact nodup_dcFold cfg uniq gf ([], false, false) List.nodup_nil
    · exact nodup_dcFold cfg uniq gf ([], false, false) List.nodup_nil
  unfold determine_channels
  dsimp only
  split
  · exact nodup_pyInsert _ _ hpost
  · exact hpost

theorem dcStep_false_mem (cfg : QuantCfg) (acc : List String × Bool × Bool)
    (f c : String) (hc : c ∈ (dcStep cfg false acc f).1) :
    c ∈ acc.1 ∨ c = "exonic_reads" ∨ c = "intronic_reads" := by
  unfold dcStep at hc
  split at hc
  · simp only [Bool.false_eq_true, if_false, mem_pyInsert] at hc
    tauto
  · split at hc
    · simp only [Bool.false_eq_true, if_false, mem_pyInsert] at hc
      tauto
    · exact Or.inl hc

theorem dcFold_counts_uniq_false (cfg : QuantCfg) (gf : List String)
    (acc : List String × Bool × Bool)
    (hacc : "exonic_counts" ∉ acc.1 ∧ "intronic_counts" ∉ acc.1) :
    "exonic_counts" ∉ (gf.foldl (dcStep cfg false) acc).1 ∧
    "intronic_counts" ∉ (gf.foldl (dcStep cfg false) acc).1 := by
  induction gf generalizing acc with
  | nil => exact hacc
  | cons f rest ih =>
    rw [List.foldl_cons]
    refine ih (dcStep cfg false acc f) ⟨?_, ?_⟩
    · intro hc
      rcases dcStep_false_mem cfg acc f _ hc with h | h | h
      · exact hacc.1 h
      · exact absurd h (by decide)
      · exact absurd h (by decide)
    · intro hc
      rcases dcStep_false_mem cfg acc f _ hc with h | h | h
      · exact hacc.2 h
      · exact absurd h (by decide)
      · exact absurd h (by decide)

theorem dc_post_subset (cfg : QuantCfg) (gf : List String) (uniq : Bool) (c : String)
    (hc : c ∈ dc_post cfg gf uniq) :
    c = "exonic_reads" ∨ c = "exonic_counts" ∨ c = "intronic_reads" ∨
      c = "intronic_counts" := by
  unfold dc_post at hc
  dsimp only at hc
  have hc' : c ∈ (dc_flags cfg gf uniq).1 := by
    split at hc
    · exact eip_apply_subset _ _ _ hc
    · exact hc
  rcases dcFold_subset cfg uniq gf ([], false, false) c hc' with h | h
  · cases h
  · exact h

theorem counts_channel_needs_uniq (cfg : QuantCfg) (gfl : List String) (ch : String)
    (hsuf : hasSuffixB ch "_counts" = true)
    (hmem : ch ∈ determine_channels cfg gfl false) : False := by
  have hpost : ch ∈ dc_post cfg gfl false := by
    unfold determine_channels at hmem
    dsimp only at hmem
    split at hmem
    · rcases (mem_pyInsert ..).mp hmem with h | h
      · exact h
      · rw [h] at hsuf
        exact absurd hsuf (by decide)
    · exact hmem
  have hflags : ch ∈ (dc_flags cfg gfl false).1 := by
    unfold dc_post at hpost
    dsimp only at hpost
    split at hpost
    · exact eip_apply_subset _ _ _ hpost
    · exact hpost
  have hnc := dcFold_counts_uniq_false cfg gfl ([], false, false)
    ⟨List.not_mem_nil "exonic_counts", List.not_mem_nil "intronic_counts"⟩
  rcases dc_post_subset cfg gfl false ch hpost with h | h | h | h
  · rw [h] at hsuf
    exact absurd hsuf (by decide)
  · rw [h] at hflags
    exact hnc.1 hflags
  · rw [h] at hsuf
    exact absurd hsuf (by decide)
  · rw [h] at hflags
    exact hnc.2 hflags

theorem process_channels_spec (cfg : QuantCfg) (u : Finset Int) (cell umi : String)
    (bundle : List Candidate) :
    (pyTruthy (process_bam_bundle cfg u cell umi bundle).1 = false →
        (process_bam_bundle cfg u cell umi bundle).2.1 = [] ∧
        (process_bam_bundle cfg u cell umi bundle).2.2 = u) ∧
    (pyTruthy (process_bam_bundle cfg u cell umi bundle).1 = true →
        ∃ gfl : List String,
          (process_bam_bundle cfg u cell umi bundle).2.1 =
            determine_channels cfg gfl (decide (cfg.hashF cell umi ∉ u)) ∧
          (process_bam_bundle cfg u cell umi bundle).2.2 =
            (if decide (cfg.hashF cell umi ∉ u) = true then insert (cfg.hashF cell umi) u
             else u)) := by
  unfold process_bam_bundle
  cases hsel : selectAlignmentStage cfg.alignment_selection cfg.alignment_priorities bundle with
  | none => simp [pyTruthy]
  | some cand =>
    dsimp only
    by_cases ht : pyTruthy (selectGeneStage cfg cand).1 = true
    · rw [if_pos ht]
      constructor
      · intro hf
        rw [ht] at hf
        cases hf
      · intro _
        exact ⟨gfToList (selectGeneStage cfg cand).2, rfl, rfl⟩
    · rw [if_neg ht]
      constructor
      · intro _
        exact ⟨rfl, rfl⟩
      · intro htr
        exact absurd htr ht

theorem mainStep_str (cfg : QuantCfg) (st : QState) (b : BundleIn) (g : String)
    (hg : (process_bam_bundle cfg st.uniq b.cell b.umi b.bundle).1 = .str g) :
    mainStep cfg st b =
      .ok ⟨(process_bam_bundle cfg st.uniq b.cell b.umi b.bundle).2.2,
        if g = "" then st.dge
        else st.dge.add_read g b.cell
          (process_bam_bundle cfg st.uniq b.cell b.umi b.bundle).2.1⟩ := by
  unfold mainStep
  dsimp only
  rw [hg]

theorem mainStep_none (cfg : QuantCfg) (st : QState) (b : BundleIn)
    (hg : (process_bam_bundle cfg st.uniq b.cell b.umi b.bundle).1 = .none) :
    mainStep cfg st b =
      .ok ⟨(process_bam_bundle cfg st.uniq b.cell b.umi b.bundle).2.2, st.dge⟩ := by
  unfold mainStep
  dsimp only
  rw [hg]

theorem mainStep_lst (cfg : QuantCfg) (st : QState) (b : BundleIn) (l : List String)
    (hg : (process_bam_bundle cfg st.uniq b.cell b.umi b.bundle).1 = .lst l) :
    mainStep cfg st b =
      .error ⟨(process_bam_bundle cfg st.uniq b.cell b.umi b.bundle).2.2,
        if (process_bam_bundle cfg st.uniq b.cell b.umi b.bundle).2.1 = [] then st.dge
        else { st.dge with
               DGE_cells := pyInsert st.dge.DGE_cells
                 (mapCell st.dge.allowed_bcs b.cell) }⟩ := by
  unfold mainStep
  dsimp only
  rw [hg]

theorem runBundles_cons (cfg : QuantCfg) (st : QState) (b : BundleIn) (bs : List BundleIn) :
    runBundles cfg st (b :: bs) =
      match mainStep cfg st b with
      | .ok st' => runBundles cfg st' bs
      | .error st' => st' := rfl

theorem runOutcomes_cons_str (cfg : QuantCfg) (u : Finset Int) (b : BundleIn)
    (bs : List BundleIn) (g : String)
    (hg : (process_bam_bundle cfg u b.cell b.umi b.bundle).1 = .str g) :
    runOutcomes cfg u (b :: bs) =
      (.str g, (process_bam_bundle cfg u b.cell b.umi b.bundle).2.1) ::
        runOutcomes cfg (process_bam_bundle cfg u b.cell b.umi b.bundle).2.2 bs := by
  conv_lhs => rw [runOutcomes]
  rw [hg]

theorem runOutcomes_cons_none (cfg : QuantCfg) (u : Finset Int) (b : BundleIn)
    (bs : List BundleIn)
    (hg : (process_bam_bundle cfg u b.cell b.umi b.bundle).1 = .none) :
    runOutcomes cfg u (b :: bs) =
      (.none, (process_bam_bundle cfg u b.cell b.umi b.bundle).2.1) ::
        runOutcomes cfg (process_bam_bundle cfg u b.cell b.umi b.bundle).2.2 bs := by
  conv_lhs => rw [runOutcomes]
  rw [hg]

theorem runOutcomes_cons_lst (cfg : QuantCfg) (u : Finset Int) (b : BundleIn)
    (bs : List BundleIn) (l : List String)
    (hg : (process_bam_bundle cfg u b.cell b.umi b.bundle).1 = .lst l) :
    runOutcomes cfg u (b :: bs) =
      [(.lst l, (process_bam_bundle cfg u b.cell b.umi b.bundle).2.1)] := by
  conv_lhs => rw [runOutcomes]
  rw [hg]

theorem freshCount_cons (cfg : QuantCfg) (u : Finset Int) (b : BundleIn)
    (bs : List BundleIn) :
    freshCount cfg u (b :: bs) =
      (if pyTruthy (process_bam_bundle cfg u b.cell b.umi b.bundle).1 = true ∧
          decide (cfg.hashF b.cell b.umi ∉ u) = true then 1 else 0) +
        (match (process_bam_bundle cfg u b.cell b.umi b.bundle).1 with
         | .lst _ => 0
         | _ => freshCount cfg (process_bam_bundle cfg u b.cell b.umi b.bundle).2.2 bs) := by
  conv_lhs => rw [freshCount]
  cases hg : (process_bam_bundle cfg u b.cell b.umi b.bundle).1 with
  | str g => simp [Bool.and_eq_true]
  | none => simp [Bool.and_eq_true]
  | lst l => simp [Bool.and_eq_true]

theorem runBundles_total_le (cfg : QuantCfg) (bs : List BundleIn) (ch : String) :
    ∀ (u : Finset Int) (dge : DGE),
      channelTotal (runBundles cfg ⟨u, dge⟩ bs).dge ch ≤
        channelTotal dge ch + producedCount cfg u bs ch := by
  induction bs with
  | nil =>
    intro u dge
    simp [runBundles, producedCount, runOutcomes]
  | cons b rest ih =>
    intro u dge
    cases hg : (process_bam_bundle cfg u b.cell b.umi b.bundle).1 with
    | str g =>
      have hprod : producedCount cfg u (b :: rest) ch =
          (if (pyTruthy (GeneVal.str g) &&
              ((process_bam_bundle cfg u b.cell b.umi b.bundle).2.1).contains ch) = true
            then 1 else 0) +
            producedCount cfg (process_bam_bundle cfg u b.cell b.umi b.bundle).2.2 rest ch := by
        unfold producedCount
        rw [runOutcomes_cons_str cfg u b rest g hg, List.filter_cons]
        split
        · rw [List.length_cons]
          omega
        · omega
      rw [runBundles_cons, mainStep_str cfg ⟨u, dge⟩ b g hg]
      dsimp only
      rw [hprod]
      refine le_trans (ih (process_bam_bundle cfg u b.cell b.umi b.bundle).2.2 _) ?_
      have hD : channelTotal
          (if g = "" then dge
           else dge.add_read g b.cell
             (process_bam_bundle cfg u b.cell b.umi b.bundle).2.1) ch ≤
          channelTotal dge ch +
            (if (pyTruthy (GeneVal.str g) &&
                ((process_bam_bundle cfg u b.cell b.umi b.bundle).2.1).contains ch) = true
              then 1 else 0) := by
        by_cases hgnil : g = ""
        · rw [if_pos hgnil]
          omega
        · rw [if_neg hgnil, add_read_total]
          have htr : pyTruthy (GeneVal.str g) = true := by
            simp [pyTruthy, hgnil]
          by_cases hmem : ch ∈ (process_bam_bundle cfg u b.cell b.umi b.bundle).2.1
          · have hone : (if (pyTruthy (GeneVal.str g) &&
                ((process_bam_bundle cfg u b.cell b.umi b.bundle).2.1).contains ch) = true
                then 1 else 0) = 1 := by
              have hcont : ((process_bam_bundle cfg u b.cell b.umi b.bundle).2.1).contains ch =
                  true := List.elem_iff.mpr hmem
              rw [htr, hcont]
              rfl
            rw [hone]
            have hnodup : ((process_bam_bundle cfg u b.cell b.umi b.bundle).2.1).Nodup := by
              obtain ⟨gfl, hchans, _⟩ :=
                (process_channels_spec cfg u b.cell b.umi b.bundle).2 (by rw [hg]; exact htr)
              rw [hchans]
              exact determine_channels_nodup ..
            have := List.nodup_iff_count_le_one.mp hnodup ch
            omega
          · have : ((process_bam_bundle cfg u b.cell b.umi b.bundle).2.1).count ch = 0 :=
              List.count_eq_zero.mpr hmem
            omega
      omega
    | none =>
      have hprod : producedCount cfg u (b :: rest) ch =
          producedCount cfg (process_bam_bundle cfg u b.cell b.umi b.bundle).2.2 rest ch := by
        unfold producedCount
        rw [runOutcomes_cons_none cfg u b rest hg, List.filter_cons]
        have : (pyTruthy GeneVal.none &&
            ((process_bam_bundle cfg u b.cell b.umi b.bundle).2.1).contains ch) = false := by
          simp [pyTruthy]
        rw [this]
        simp
      rw [runBundles_cons, mainStep_none cfg ⟨u, dge⟩ b hg]
      dsimp only
      rw [hprod]
      exact ih (process_bam_bundle cfg u b.cell b.umi b.bundle).2.2 dge
    | lst l =>
      rw [runBundles_cons, mainStep_lst cfg ⟨u, dge⟩ b l hg]
      dsimp only
      have hsame : channelTotal
          (if (process_bam_bundle cfg u b.cell b.umi b.bundle).2.1 = [] then dge
           else { dge with
                  DGE_cells := pyInsert dge.DGE_cells (mapCell dge.allowed_bcs b.cell) }) ch =
          channelTotal dge ch := by
        split
        · rfl
        · rfl
      rw [hsame]
      omega

theorem runBundles_counts_le (cfg : QuantCfg) (ch : String)
    (hsuf : hasSuffixB ch "_counts" = true) (bs : List BundleIn) :
    ∀ (u : Finset Int) (dge : DGE),
      channelTotal (runBundles cfg ⟨u, dge⟩ bs).dge ch ≤
        channelTotal dge ch + freshCount cfg u bs := by
  induction bs with
  | nil =>
    intro u dge
    simp [runBundles, freshCount]
  | cons b rest ih =>
    intro u dge
    rw [freshCount_cons]
    cases hg : (process_bam_bundle cfg u b.cell b.umi b.bundle).1 with
    | str g =>
      dsimp only
      rw [runBundles_cons, mainStep_str cfg ⟨u, dge⟩ b g hg]
      dsimp only
      refine le_trans (ih (process_bam_bundle cfg u b.cell b.umi b.bundle).2.2 _) ?_
      have hD : channelTotal
          (if g = "" then dge
           else dge.add_read g b.cell
             (process_bam_bundle cfg u b.cell b.umi b.bundle).2.1) ch ≤
          channelTotal dge ch +
            (if pyTruthy (GeneVal.str g) = true ∧
                decide (cfg.hashF b.cell b.umi ∉ u) = true then 1 else 0) := by
        by_cases hgnil : g = ""
        · rw [if_pos hgnil]
          omega
        · rw [if_neg hgnil, add_read_total]
          have htr : pyTruthy (GeneVal.str g) = true := by
            simp [pyTruthy, hgnil]
          obtain ⟨gfl, hchans, _⟩ :=
            (process_channels_spec cfg u b.cell b.umi b.bundle).2 (by rw [hg]; exact htr)
          by_cases hfresh : cfg.hashF b.cell b.umi ∈ u
          · have hdec : decide (cfg.hashF b.cell b.umi ∉ u) = false := by
              simp [hfresh]
            have hcount : ((process_bam_bundle cfg u b.cell b.umi b.bundle).2.1).count ch =
                0 := by
              apply List.count_eq_zero.mpr
              intro hmem
              rw [hchans, hdec] at hmem
              exact counts_channel_needs_uniq cfg gfl ch hsuf hmem
            omega
          · have hdec : decide (cfg.hashF b.cell b.umi ∉ u) = true := by
              simp [hfresh]
            have hone : (if pyTruthy (GeneVal.str g) = true ∧
                decide (cfg.hashF b.cell b.umi ∉ u) = true then 1 else 0) = 1 := by
              rw [if_pos ⟨htr, hdec⟩]
            rw [hone]
            have hnodup : ((process_bam_bundle cfg u b.cell b.umi b.bundle).2.1).Nodup := by
              rw [hchans]
              exact determine_channels_nodup ..
            have := List.nodup_iff_count_le_one.mp hnodup ch
            omega
      omega
    | none =>
      dsimp only
      rw [runBundles_cons, mainStep_none cfg ⟨u, dge⟩ b hg]
      dsimp only
      have := ih (process_bam_bundle cfg u b.cell b.umi b.bundle).2.2 dge
      omega
    | lst l =>
      dsimp only
      rw [runBundles_cons, mainStep_lst cfg ⟨u, dge⟩ b l hg]
      dsimp only
      have hsame : channelTotal
          (if (process_bam_bundle cfg u b.cell b.umi b.bundle).2.1 = [] then dge
           else { dge with
                  DGE_cells := pyInsert dge.DGE_cells (mapCell dge.allowed_bcs b.cell) }) ch =
          channelTotal dge ch := by
        split
        · rfl
        · rfl
      rw [hsame]
      omega

theorem freshCount_le_card (cfg : QuantCfg) (bs : List BundleIn) :
    ∀ u : Finset Int,
      freshCount cfg u bs ≤
        ((bs.map (fun b => cfg.hashF b.cell b.umi)).toFinset \ u).card := by
  induction bs with
  | nil =>
    intro u
    simp [freshCount]
  | cons b rest ih =>
    intro u
    rw [freshCount_cons, List.map_cons, List.toFinset_cons]
    have hmono : ((rest.map (fun b => cfg.hashF b.cell b.umi)).toFinset \ u).card ≤
        ((insert (cfg.hashF b.cell b.umi)
          (rest.map (fun b => cfg.hashF b.cell b.umi)).toFinset) \ u).card :=
      Finset.card_le_card
        (Finset.sdiff_subset_sdiff (Finset.subset_insert ..) (le_refl u))
    have hkey : ∀ hfresh : cfg.hashF b.cell b.umi ∉ u,
        1 + ((rest.map (fun b => cfg.hashF b.cell b.umi)).toFinset \
            insert (cfg.hashF b.cell b.umi) u).card ≤
          ((insert (cfg.hashF b.cell b.umi)
            (rest.map (fun b => cfg.hashF b.cell b.umi)).toFinset) \ u).card := by
      intro hfresh
      rw [Finset.sdiff_insert, Finset.insert_sdiff_of_not_mem _ hfresh]
      by_cases hY : cfg.hashF b.cell b.umi ∈
          (rest.map (fun b => cfg.hashF b.cell b.umi)).toFinset \ u
      · rw [Finset.insert_eq_self.mpr hY, Finset.card_erase_of_mem hY]
        have := Finset.card_pos.mpr ⟨_, hY⟩
        omega
      · rw [Finset.erase_eq_of_not_mem hY, Finset.card_insert_of_not_mem hY]
        omega
    cases hg : (process_bam_bundle cfg u b.cell b.umi b.bundle).1 with
    | lst l =>
      dsimp only
      by_cases hfresh : cfg.hashF b.cell b.umi ∈ u
      · rw [if_neg (by simp [hfresh])]
        omega
      · have hmem : cfg.hashF b.cell b.umi ∈
            (insert (cfg.hashF b.cell b.umi)
              (rest.map (fun b => cfg.hashF b.cell b.umi)).toFinset) \ u :=
          Finset.mem_sdiff.mpr ⟨Finset.mem_insert_self .., hfresh⟩
        have hpos := Finset.card_pos.mpr ⟨_, hmem⟩
        split_ifs <;> omega
    | none =>
      dsimp only
      rw [if_neg (by simp [pyTruthy])]
      have hu : (process_bam_bundle cfg u b.cell b.umi b.bundle).2.2 = u :=
        ((process_channels_spec cfg u b.cell b.umi b.bundle).1 (by rw [hg]; rfl)).2
      rw [hu]
      have := ih u
      omega
    | str g =>
      dsimp only
      by_cases hgnil : g = ""
      · have hfal : pyTruthy (process_bam_bundle cfg u b.cell b.umi b.bundle).1 = false := by
          rw [hg, hgnil]
          rfl
        rw [if_neg (by subst hgnil; simp [pyTruthy])]
        have hu : (process_bam_bundle cfg u b.cell b.umi b.bundle).2.2 = u :=
          ((process_channels_spec cfg u b.cell b.umi b.bundle).1 hfal).2
        rw [hu]
        have := ih u
        omega
      · have htr : pyTruthy (GeneVal.str g) = true := by
          simp [pyTruthy, hgnil]
        obtain ⟨gfl, _, hu⟩ :=
          (process_channels_spec cfg u b.cell b.umi b.bundle).2 (by rw [hg]; exact htr)
        by_cases hfresh : cfg.hashF b.cell b.umi ∈ u
        · rw [if_neg (by simp [hfresh])]
          have hu' : (process_bam_bundle cfg u b.cell b.umi b.bundle).2.2 = u := by
            rw [hu, if_neg (by simp [hfresh])]
          rw [hu']
          have := ih u
          omega
        · rw [if_pos ⟨htr, by simp [hfresh]⟩]
          have hu' : (process_bam_bundle cfg u b.cell b.umi b.bundle).2.2 =
              insert (cfg.hashF b.cell b.umi) u := by
            rw [hu, if_pos (by simp [hfresh])]
          rw [hu']
          have := ih (insert (cfg.hashF b.cell b.umi) u)
          have := hkey hfresh
          omega

/-- C6 (confirmed): starting from fresh counter and aggregator instances,
after any finite bundle list the total accumulated in a channel whose name
ends in "_reads" is at most the number of processed bundles that were
disambiguated to a gene and whose classification produced that channel,
and the total accumulated in a channel whose name ends in "_counts" is at
most the number of distinct (cell, umi) pairs among the bundles. -/
theorem c6_channel_totals (cfg : QuantCfg) (chans : List String)
    (allowed : Option (List String)) (bs : List BundleIn) (ch : String) :
    (hasSuffixB ch "_reads" = true →
      channelTotal (runBundles cfg ⟨∅, DGE.init chans allowed⟩ bs).dge ch ≤
        producedCount cfg ∅ bs ch) ∧
    (hasSuffixB ch "_counts" = true →
      channelTotal (runBundles cfg ⟨∅, DGE.init chans allowed⟩ bs).dge ch ≤
        ((bs.map (fun b => (b.cell, b.umi))).dedup).length) := by
  have hinit : channelTotal (DGE.init chans allowed) ch = 0 := rfl
  constructor
  · intro _
    have := runBundles_total_le cfg bs ch ∅ (DGE.init chans allowed)
    omega
  · intro hsuf
    have h1 := runBundles_counts_le cfg ch hsuf bs ∅ (DGE.init chans allowed)
    have h2 := freshCount_le_card cfg bs ∅
    have h3 : ((bs.map (fun b => cfg.hashF b.cell b.umi)).toFinset \ ∅).card ≤
        ((bs.map (fun b => (b.cell, b.umi))).dedup).length := by
      rw [Finset.sdiff_empty]
      have hmm : bs.map (fun b => cfg.hashF b.cell b.umi) =
          (bs.map (fun b => (b.cell, b.umi))).map (fun p => cfg.hashF p.1 p.2) := by
        rw [List.map_map]
        rfl
      rw [hmm]
      have himg : ((bs.map (fun b => (b.cell, b.umi))).map
          (fun p => cfg.hashF p.1 p.2)).toFinset =
          (bs.map (fun b => (b.cell, b.umi))).toFinset.image
            (fun p => cfg.hashF p.1 p.2) := by
        rw [List.toFinset, List.toFinset]
        exact Multiset.toFinset_map (fun p : String × String => cfg.hashF p.1 p.2)
          (↑(bs.map (fun b => (b.cell, b.umi))))
      rw [himg]
      have hle : ((bs.map (fun b => (b.cell, b.umi))).toFinset.image
          (fun p => cfg.hashF p.1 p.2)).card ≤
          (bs.map (fun b => (b.cell, b.umi))).toFinset.card := Finset.card_image_le
      have heq : (bs.map (fun b => (b.cell, b.umi))).toFinset.card =
          ((bs.map (fun b => (b.cell, b.umi))).dedup).length :=
        List.card_toFinset ..
      omega
    omega

/-- C6 witness: one bundle counted into "exonic_reads" and
"exonic_counts"; both totals are 1, within both bounds. -/
theorem c6_channel_totals_witness :
    channelTotal (runBundles (defaultCfg (fun _ _ => 0))
        ⟨∅, DGE.init default_channels none⟩
        [⟨"AAA", "U1", [⟨"chr1", "+", ["GeneA"], ["C"], 10⟩]⟩]).dge "exonic_reads" ≤
      producedCount (defaultCfg (fun _ _ => 0)) ∅
        [⟨"AAA", "U1", [⟨"chr1", "+", ["GeneA"], ["C"], 10⟩]⟩] "exonic_reads" ∧
    channelTotal (runBundles (defaultCfg (fun _ _ => 0))
        ⟨∅, DGE.init default_channels none⟩
        [⟨"AAA", "U1", [⟨"chr1", "+", ["GeneA"], ["C"], 10⟩]⟩]).dge "exonic_counts" ≤
      (([⟨"AAA", "U1", [⟨"chr1", "+", ["GeneA"], ["C"], 10⟩]⟩] :
          List BundleIn).map (fun b => (b.cell, b.umi))).dedup.length :=
  ⟨(c6_channel_totals (defaultCfg (fun _ _ => 0)) default_channels none
      [⟨"AAA", "U1", [⟨"chr1", "+", ["GeneA"], ["C"], 10⟩]⟩] "exonic_reads").1 (by decide),
   (c6_channel_totals (defaultCfg (fun _ _ => 0)) default_channels none
      [⟨"AAA", "U1", [⟨"chr1", "+", ["GeneA"], ["C"], 10⟩]⟩] "exonic_counts").2 (by decide)⟩

/-- C9 witness: a state with one counted read; rebuilding from the state
returned by the first build yields the same matrices, index lists and
state. -/
theorem c9_build_idempotent_witness :
    make_sparse_arrays
        ⟨["counts", "exonic_reads"], none,
         [(("GeneA", "AAA"), [("counts", 1), ("exonic_reads", 1)])], ["AAA"], ["GeneA"]⟩ =
      some ([("counts", ⟨[1], [0], [0]⟩), ("exonic_reads", ⟨[1], [0], [0]⟩)],
        ["AAA"], ["GeneA"],
        ⟨["counts", "exonic_reads"], none,
         [(("GeneA", "AAA"), [("counts", 1), ("exonic_reads", 1)])], ["AAA"], ["GeneA"]⟩) :=
  c9_build_idempotent
    ⟨["counts", "exonic_reads"], none,
     [(("GeneA", "AAA"), [("counts", 1), ("exonic_reads", 1)])], ["AAA"], ["GeneA"]⟩
    [("counts", ⟨[1], [0], [0]⟩), ("exonic_reads", ⟨[1], [0], [0]⟩)]
    ["AAA"] ["GeneA"]
    ⟨["counts", "exonic_reads"], none,
     [(("GeneA", "AAA"), [("counts", 1), ("exonic_reads", 1)])], ["AAA"], ["GeneA"]⟩
    (by decide)
